import Mathlib

/-!
Verification of the shortest-path core of this repository (src/main.py).

The program implements Dijkstra's algorithm by hand over a networkx
(multi)graph whose edges carry an optional numeric 'length' attribute:

* `dijkstra G origem destino` (src/main.py lines 35-113) is embedded below as
  a pure function: Python dicts become `Dict`, the heapq priority queue
  becomes a list popped at its lexicographically least `(distance, node)`
  pair, and the finite Python float weights and distances become `ℤ`
  (`float('infinity')` becomes `⊤` of `WithTop ℤ`; the function only adds
  and compares weights, so any linearly ordered additive group carries the
  algorithm faithfully, and `ℤ` keeps every definition executable by the
  kernel), and the two exceptions the function can raise (the
  NetworkXError from `G.neighbors` on an absent node, and the KeyError from
  `predecessores[destino]` / `distancias[vizinho]`) become the `Err` results
  `unknownNode` / `keyError`.
* The `while pq:` loop always terminates (each iteration either consumes a
  queue entry or finalizes a node, and only finalized nodes push), so the
  embedding runs it on a fuel argument that provably suffices; the
  reconstruction `while no_atual is not None:` loop can genuinely diverge on
  a predecessor cycle, which the embedding reports as `Err.nonterm`.
-/

namespace Grafos

abbrev Node := Nat

/-- Distances: Python floats together with `float('infinity')`. -/
abbrev EDist := WithTop ℤ

/-- The data networkx stores for one adjacent pair `G[u][v]`: either a
multigraph's dict from integer keys to attribute dicts (modelled as the list
of the attribute dicts of keys 0, 1, ...), or a simple graph's attribute
dict. Of the attribute dict only the optional 'length' entry is relevant to
the program, so an attribute dict is an `Option ℤ`. -/
inductive EdgeData
  | multi (keyed : List (Option ℤ))
  | simple (attrs : Option ℤ)
  deriving DecidableEq

/-- A graph: its node list (`G.nodes()`) and, for each node, its adjacency
list (`G.neighbors(u)` with the stored edge data `G[u][v]`). -/
structure Graph where
  nodes : List Node
  adj : Node → List (Node × EdgeData)

/-- Lines 80-86 of src/main.py: `G[no_atual][vizinho][0]['length']`, falling
back to `G[no_atual][vizinho]['length']`, else skip (`continue`).
For a multigraph, `[0]` reads key 0; if that key or its 'length' is missing,
the fallback looks 'length' up among the integer keys and raises again, so
the edge is skipped. For a simple graph, `[0]` raises (attribute dicts have
no key 0 here) and the fallback reads 'length' directly. -/
def edgeLength : EdgeData → Option ℤ
  | .multi keyed => (keyed.head?).join
  | .simple attrs => attrs

/-- A Python dict with `Node` keys: its key set and its value function
(values at absent keys are irrelevant; reads check the key set). -/
structure Dict (α : Type) where
  keys : List Node
  val : Node → α

/-- Dict read `d[k]`: `none` is a KeyError. -/
def Dict.get? {α : Type} (d : Dict α) (k : Node) : Option α :=
  if k ∈ d.keys then some (d.val k) else none

/-- Dict write `d[k] = v` (adds the key when absent). -/
def Dict.set {α : Type} (d : Dict α) (k : Node) (v : α) : Dict α :=
  ⟨if k ∈ d.keys then d.keys else k :: d.keys,
   fun n => if n = k then v else d.val n⟩

/-- The ways the Python function can fail to return: the NetworkXError that
`G.neighbors` raises on a node absent from the graph, a KeyError from one of
the engine's own dicts, and divergence of the reconstruction loop. -/
inductive Err
  | unknownNode (n : Node)
  | keyError
  | nonterm
  deriving DecidableEq

/-- heapq's order on its `(distance, node)` tuples: lexicographic. -/
def pqLe (a b : ℤ × Node) : Bool :=
  decide (a.1 < b.1) || (decide (a.1 = b.1) && decide (a.2 ≤ b.2))

/-- `heapq.heappop`: remove and return the least `(distance, node)` entry. -/
def popMin : List (ℤ × Node) → Option ((ℤ × Node) × List (ℤ × Node))
  | [] => none
  | x :: xs =>
    match popMin xs with
    | none => some (x, [])
    | some (m, rest) => if pqLe x m then some (x, xs) else some (m, x :: rest)

/-- The local state of one `dijkstra` call: the graph it reads and the four
query-scoped structures of lines 50-60 of src/main.py. -/
structure LoopState where
  graph : Graph
  dist : Dict EDist
  pred : Dict (Option Node)
  visited : List Node
  pq : List (ℤ × Node)

inductive RelaxRes
  | ok (dist : Dict EDist) (pred : Dict (Option Node)) (pq : List (ℤ × Node))
  | err (e : Err)

/-- Lines 78-96 of src/main.py: the `for vizinho in G.neighbors(no_atual):`
relaxation pass, threading `distancias`, `predecessores` and `pq`. -/
def relaxAll (distAtual : ℤ) (noAtual : Node) :
    List (Node × EdgeData) → Dict EDist → Dict (Option Node) →
    List (ℤ × Node) → RelaxRes
  | [], dist, pred, pq => .ok dist pred pq
  | (vizinho, e) :: rest, dist, pred, pq =>
    match edgeLength e with
    | none => relaxAll distAtual noAtual rest dist pred pq
    | some peso =>
      match dist.get? vizinho with
      | none => .err .keyError
      | some dv =>
        let distancia := distAtual + peso
        if (distancia : EDist) < dv then
          relaxAll distAtual noAtual rest (dist.set vizinho (distancia : EDist))
            (pred.set vizinho (some noAtual)) ((distancia, vizinho) :: pq)
        else relaxAll distAtual noAtual rest dist pred pq

inductive LoopRes
  | ok (s : LoopState)
  | err (e : Err)

/-- Lines 62-96 of src/main.py: the `while pq:` loop. Branch order follows
the source: pop, destination test (break), stale test (continue), mark
visited, neighbor expansion (NetworkXError when the node is absent). The
fuel only bounds the iteration count; `dijkstra` passes provably enough. -/
def loop (destino : Node) : Nat → LoopState → LoopRes
  | 0, _ => .err .nonterm
  | fuel + 1, s =>
    match popMin s.pq with
    | none => .ok s
    | some ((distAtual, noAtual), rest) =>
      if noAtual = destino then .ok { s with pq := rest }
      else if noAtual ∈ s.visited then loop destino fuel { s with pq := rest }
      else if noAtual ∈ s.graph.nodes then
        match relaxAll distAtual noAtual (s.graph.adj noAtual) s.dist s.pred rest with
        | .err e => .err e
        | .ok dist' pred' pq' =>
          loop destino fuel
            { s with dist := dist', pred := pred',
                     visited := s.visited ++ [noAtual], pq := pq' }
      else .err (.unknownNode noAtual)

inductive PathRes
  | ok (p : List Node)
  | err (e : Err)

/-- Lines 106-111 of src/main.py: follow predecessor links from the
destination and reverse (the accumulator builds the reversed list directly).
A predecessor cycle makes the Python loop diverge; the fuel `dijkstra`
passes is enough whenever the predecessor map is cycle-free. -/
def buildPath (pred : Dict (Option Node)) : Nat → Node → List Node → PathRes
  | 0, _, _ => .err .nonterm
  | fuel + 1, noAtual, caminho =>
    match pred.get? noAtual with
    | none => .err .keyError
    | some none => .ok (noAtual :: caminho)
    | some (some p) => buildPath pred fuel p (noAtual :: caminho)

/-- Total adjacency-list length; the `while pq:` loop runs at most
`degSumAll G + 1` iterations from the initial state. -/
def degSumAll (G : Graph) : Nat :=
  (G.nodes.map (fun u => (G.adj u).length)).sum

/-- Lines 50-60 of src/main.py: `distancias` at infinity except the origin
(the assignment `distancias[origem] = 0` adds the key when absent),
`predecessores` all `None`, `visitados` empty, `pq = [(0, origem)]`. -/
def initState (G : Graph) (origem : Node) : LoopState :=
  ⟨G, (Dict.mk G.nodes (fun _ => (⊤ : EDist))).set origem ((0 : ℤ) : EDist),
   Dict.mk G.nodes (fun _ => none), [], [((0 : ℤ), origem)]⟩

/-- The state of a `dijkstra` call when its `while pq:` loop ends. -/
def dijkstraLoopOut (G : Graph) (origem destino : Node) : LoopRes :=
  loop destino (degSumAll G + 2) (initState G origem)

inductive DResult
  | ok (path : List Node) (cost : EDist)
  | err (e : Err)
  deriving DecidableEq

/-- Lines 35-113 of src/main.py: the whole `dijkstra` function. After the
loop: the `predecessores[destino]` read (KeyError when the destination is
not a key), the explicit no-path return `([], float('infinity'))`, the
reconstruction loop, and `return caminho, distancias[destino]`. -/
def dijkstra (G : Graph) (origem destino : Node) : DResult :=
  match dijkstraLoopOut G origem destino with
  | .err e => .err e
  | .ok s =>
    match s.pred.get? destino with
    | none => .err .keyError
    | some pd =>
      if pd = none ∧ destino ≠ origem then .ok [] (⊤ : EDist)
      else
        match buildPath s.pred (G.nodes.length + 2) destino [] with
        | .err e => .err e
        | .ok caminho =>
          match s.dist.get? destino with
          | none => .err .keyError
          | some dd => .ok caminho dd

/-- The cost component of a result, when it has one. -/
def resCost : DResult → Option EDist
  | .ok _ c => some c
  | .err _ => none

/-!
Specification-side notions, for stating the claims: per-pair edge weights as
the spec reads them (all parallel weights, and their minimum), per-pair
weights as the engine's lookup reads them, walk costs, the minimum cost over
all duplicate-free origin-destination paths, and plain edge reachability.
-/

/-- The weights of all parallel edges stored between one adjacent pair, as
the spec's data model reads them (every parallel edge, not just key 0). -/
def specWeights : EdgeData → List ℤ
  | .multi keyed => keyed.filterMap id
  | .simple attrs => attrs.toList

/-- Every weight the engine's lookup (`edgeLength`) can read for the pair
`(u, v)`: one per adjacency-list entry for `v` whose lookup succeeds. -/
def effWeights (G : Graph) (u v : Node) : List ℤ :=
  (G.adj u).filterMap (fun p => if p.1 = v then edgeLength p.2 else none)

/-- Every parallel-edge weight between `u` and `v`, in the spec's sense. -/
def parWeights (G : Graph) (u v : Node) : List ℤ :=
  (G.adj u).flatMap (fun p => if p.1 = v then specWeights p.2 else [])

/-- Minimum of a weight list, `⊤` when empty. -/
def listMin (l : List ℤ) : EDist :=
  l.foldr (fun w m => min ((w : ℤ) : EDist) m) ⊤

/-- The weight the engine effectively traverses `u → v` with (the least the
lookup can read; on real networkx adjacency, the key-0 / attribute value). -/
def eWeightEff (G : Graph) (u v : Node) : EDist := listMin (effWeights G u v)

/-- The minimum parallel-edge weight between `u` and `v`: the effective
weight the spec requires the engine to use. -/
def minParallel (G : Graph) (u v : Node) : EDist := listMin (parWeights G u v)

/-- Cost of a node sequence under a per-pair weight assignment. -/
def walkCostW (W : Node → Node → EDist) : List Node → EDist
  | [] => ⊤
  | [_] => 0
  | a :: b :: rest => W a b + walkCostW W (b :: rest)

/-- All duplicate-free sequences of at most `n` elements drawn from the
pool (a fuel-based enumeration, kernel-executable). -/
def partialPermsF : Nat → List Node → List (List Node)
  | 0, _ => [[]]
  | n + 1, pool =>
    [] :: pool.flatMap (fun a => (partialPermsF n (pool.erase a)).map (fun t => a :: t))

/-- All duplicate-free node sequences of `G` from `o` to `d`. Since weights
are non-negative in every optimality statement, the minimum walk cost is
attained on one of these. -/
def candidates (G : Graph) (o d : Node) : List (List Node) :=
  (partialPermsF G.nodes.length G.nodes).filter
    (fun p => decide (p.head? = some o) && decide (p.getLast? = some d))

/-- Least cost over all duplicate-free `o`-`d` paths, per weights `W`. -/
def reachMinW (G : Graph) (o d : Node) (W : Node → Node → EDist) : EDist :=
  ((candidates G o d).map (walkCostW W)).foldr min ⊤

/-- Least path cost under the engine's effective weights. -/
def reachMin (G : Graph) (o d : Node) : EDist := reachMinW G o d (eWeightEff G)

/-- Least path cost under minimum parallel-edge weights: the spec's "true
minimum over all origin-to-destination paths". -/
def reachMinPar (G : Graph) (o d : Node) : EDist := reachMinW G o d (minParallel G)

/-- Some edge (with or without a 'length') connects `u` to `v`. -/
def adjacentB (G : Graph) (u v : Node) : Bool := (G.adj u).any (fun p => p.1 == v)

/-- The sequence steps along edges of the graph. -/
def chainB (G : Graph) : List Node → Bool
  | [] => false
  | [_] => true
  | a :: b :: rest => adjacentB G a b && chainB G (b :: rest)

/-- Plain edge reachability: some duplicate-free edge path joins `o` to `d`. -/
def Reachable (G : Graph) (o d : Node) : Prop :=
  ∃ p ∈ candidates G o d, chainB G p = true

/-- Well-formedness every graph handed to the program by networkx has: the
node list is duplicate-free and adjacency stays inside the node set. -/
def WF (G : Graph) : Prop :=
  G.nodes.Nodup ∧ ∀ u ∈ G.nodes, ∀ p ∈ G.adj u, p.1 ∈ G.nodes

/-- Undirectedness as networkx represents it: each stored edge appears in
the adjacency of both endpoints with the same data. -/
def Symm (G : Graph) : Prop :=
  ∀ u ∈ G.nodes, ∀ p ∈ G.adj u, (u, p.2) ∈ G.adj p.1

/-- Every readable 'length' in the graph is non-negative. -/
def NonnegW (G : Graph) : Prop :=
  ∀ u ∈ G.nodes, ∀ p ∈ G.adj u, ∀ w ∈ (edgeLength p.2).toList, (0 : ℤ) ≤ w

instance (G : Graph) : Decidable (WF G) := by unfold WF; infer_instance

instance (G : Graph) : Decidable (Symm G) := by unfold Symm; infer_instance

instance (G : Graph) : Decidable (NonnegW G) := by unfold NonnegW; infer_instance

instance (G : Graph) (o d : Node) : Decidable (Reachable G o d) := by
  unfold Reachable; infer_instance

/-- The consecutive pairs of the sequence each carry a weight from `ws` that
the engine's lookup reads for that pair. -/
def linked (G : Graph) : List Node → List ℤ → Prop
  | [], [] => True
  | [_], [] => True
  | a :: b :: rest, w :: ws => w ∈ effWeights G a b ∧ linked G (b :: rest) ws
  | _, _ => False

/-- Every consecutive pair of the sequence is connected by a graph edge. -/
def edgeChain (G : Graph) : List Node → Prop
  | a :: b :: rest => (∃ e, (b, e) ∈ G.adj a) ∧ edgeChain G (b :: rest)
  | _ => True

/-!
Concrete graphs used as witnesses and counterexamples.
-/

/-- A single isolated node. -/
def oneG : Graph := ⟨[0], fun _ => []⟩

/-- Two nodes joined by two parallel edges: weight `w0` at multigraph key 0
and `w1` at key 1 (in both adjacency directions, as networkx stores them). -/
def twoNodeMulti (a b : Node) (w0 w1 : ℤ) : Graph :=
  ⟨[a, b], fun u =>
    if u = a then [(b, .multi [some w0, some w1])]
    else if u = b then [(a, .multi [some w0, some w1])] else []⟩

/-- Two nodes joined by one simple edge of weight `w`. -/
def twoNodeSimple (a b : Node) (w : ℤ) : Graph :=
  ⟨[a, b], fun u =>
    if u = a then [(b, .simple (some w))]
    else if u = b then [(a, .simple (some w))] else []⟩

/-- The spec's end-to-end example: nodes A,B,C,D as 0,1,2,3 with edges
A-B (1), B-D (1), A-C (5), C-D (1); the best route A to D is A,B,D at 2. -/
def ex4 : Graph :=
  ⟨[0, 1, 2, 3], fun u =>
    if u = 0 then [(1, .simple (some 1)), (2, .simple (some 5))]
    else if u = 1 then [(0, .simple (some 1)), (3, .simple (some 1))]
    else if u = 2 then [(0, .simple (some 5)), (3, .simple (some 1))]
    else if u = 3 then [(1, .simple (some 1)), (2, .simple (some 1))] else []⟩

/-- An edge 0-1 plus the isolated node 4 (unreachable destination). -/
def ex5 : Graph :=
  ⟨[0, 1, 4], fun u =>
    if u = 0 then [(1, .simple (some 1))]
    else if u = 1 then [(0, .simple (some 1))] else []⟩

/-- The two parallel edges 5 (key 0) and 3 (key 1) of the spec's
parallel-edge test, between nodes 0 and 1. -/
def cexPar : Graph := twoNodeMulti 0 1 5 3

/-!
Basic unfolding and stepping lemmas.
-/

lemma loop_succ (destino : Node) (fuel : Nat) (s : LoopState) :
    loop destino (fuel + 1) s =
      match popMin s.pq with
      | none => .ok s
      | some ((distAtual, noAtual), rest) =>
        if noAtual = destino then .ok { s with pq := rest }
        else if noAtual ∈ s.visited then loop destino fuel { s with pq := rest }
        else if noAtual ∈ s.graph.nodes then
          match relaxAll distAtual noAtual (s.graph.adj noAtual) s.dist s.pred rest with
          | .err e => .err e
          | .ok dist' pred' pq' =>
            loop destino fuel
              { s with dist := dist', pred := pred',
                       visited := s.visited ++ [noAtual], pq := pq' }
        else .err (.unknownNode noAtual) := rfl

lemma buildPath_succ (pred : Dict (Option Node)) (fuel : Nat) (noAtual : Node)
    (caminho : List Node) :
    buildPath pred (fuel + 1) noAtual caminho =
      match pred.get? noAtual with
      | none => .err .keyError
      | some none => .ok (noAtual :: caminho)
      | some (some p) => buildPath pred fuel p (noAtual :: caminho) := rfl

lemma buildPath_stops (pred : Dict (Option Node)) (fuel : Nat) (cur : Node)
    (acc : List Node) (h : pred.get? cur = some none) (hf : fuel ≠ 0) :
    buildPath pred fuel cur acc = .ok (cur :: acc) := by
  cases fuel with
  | zero => exact absurd rfl hf
  | succ m => rw [buildPath_succ, h]

/-- The `while pq:` loop never writes the graph component of the state. -/
lemma loop_graph (destino : Node) :
    ∀ (fuel : Nat) (s s' : LoopState),
      loop destino fuel s = .ok s' → s'.graph = s.graph := by
  intro fuel
  induction fuel with
  | zero =>
    intro s s' h
    exact absurd h (by simp [loop])
  | succ n ih =>
    intro s s' h
    rw [loop_succ] at h
    rcases hpop : popMin s.pq with _ | ⟨⟨da, na⟩, rest⟩ <;> rw [hpop] at h <;>
      dsimp only at h
    · cases h; rfl
    · by_cases hd : na = destino
      · rw [if_pos hd] at h; cases h; rfl
      · rw [if_neg hd] at h
        by_cases hv : na ∈ s.visited
        · rw [if_pos hv] at h
          have hgr := ih _ _ h
          exact hgr
        · rw [if_neg hv] at h
          by_cases hg : na ∈ s.graph.nodes
          · rw [if_pos hg] at h
            rcases hr : relaxAll da na (s.graph.adj na) s.dist s.pred rest with
              ⟨dist', pred', pq'⟩ | e <;> rw [hr] at h <;> dsimp only at h
            · have hgr := ih _ _ h
              exact hgr
            · exact absurd h (by simp)
          · rw [if_neg hg] at h; exact absurd h (by simp)

/-- The loop state of the run of `dijkstra oneG 0 0`. -/
def st9 : LoopState :=
  match dijkstraLoopOut oneG 0 0 with
  | .ok s => s
  | .err _ => initState oneG 0

/-!
Claim theorems.
-/

/-- C3: for every graph `G` and every node `n` present in `G`,
`dijkstra G n n` returns the single-node path `[n]` with cost 0. -/
theorem dijkstra_self (G : Graph) (n : Node) (h : n ∈ G.nodes) :
    dijkstra G n n = .ok [n] ((0 : ℤ) : EDist) := by
  unfold dijkstra dijkstraLoopOut initState
  rw [show degSumAll G + 2 = (degSumAll G + 1) + 1 from rfl, loop_succ]
  simp only [popMin, if_true]
  rw [buildPath_stops]
  · simp [Dict.get?, Dict.set, h]
  · simp [Dict.get?, h]
  · simp

theorem dijkstra_self_witness :
    0 ∈ oneG.nodes ∧ dijkstra oneG 0 0 = .ok [0] ((0 : ℤ) : EDist) :=
  ⟨by decide, dijkstra_self oneG 0 (by decide)⟩

/-- C8: the embedded `dijkstra` is a function of its arguments, so any two
calls with identical graph, origin and destination return results with the
same cost. (In the source this holds because heapq pops by the total
lexicographic order on `(distance, node)` tuples and dict iteration order is
deterministic, so the whole call is deterministic.) -/
theorem dijkstra_cost_deterministic (G : Graph) (o d : Node) (r1 r2 : DResult)
    (h1 : dijkstra G o d = r1) (h2 : dijkstra G o d = r2) :
    resCost r1 = resCost r2 := by
  subst h1; subst h2; rfl

theorem dijkstra_cost_deterministic_witness :
    dijkstra ex4 0 3 = DResult.ok [0, 1, 3] ((2 : ℤ) : EDist) ∧
    resCost (DResult.ok [0, 1, 3] ((2 : ℤ) : EDist)) =
      resCost (DResult.ok [0, 1, 3] ((2 : ℤ) : EDist)) :=
  ⟨by decide, dijkstra_cost_deterministic ex4 0 3 _ _ (by decide) (by decide)⟩

/-- C9: a `dijkstra` call leaves the graph unchanged: the state its search
loop finishes in carries exactly the graph it started from (the loop writes
only the query-scoped `dist`, `pred`, `visited` and `pq` fields, which
`initState` allocates fresh per call). -/
theorem dijkstra_reads_only (G : Graph) (o d : Node) (s' : LoopState)
    (h : dijkstraLoopOut G o d = .ok s') : s'.graph = G :=
  loop_graph d (degSumAll G + 2) (initState G o) s' h

theorem dijkstra_reads_only_witness :
    dijkstraLoopOut oneG 0 0 = .ok st9 ∧ st9.graph = oneG :=
  ⟨rfl, dijkstra_reads_only oneG 0 0 st9 rfl⟩

/-- C10: when the edge between the current node and a neighbor carries no
readable 'length' (`edgeLength` is `none`, covering both the multi-edge
key-0 lookup and the direct attribute lookup), the relaxation pass skips
that neighbor entry, leaving all state unchanged, instead of erroring or
using a default weight. -/
theorem relax_skips_weightless (distAtual : ℤ) (noAtual vizinho : Node)
    (e : EdgeData) (rest : List (Node × EdgeData)) (dist : Dict EDist)
    (pred : Dict (Option Node)) (pq : List (ℤ × Node))
    (h : edgeLength e = none) :
    relaxAll distAtual noAtual ((vizinho, e) :: rest) dist pred pq =
      relaxAll distAtual noAtual rest dist pred pq := by
  simp [relaxAll, h]

theorem relax_skips_weightless_witness :
    edgeLength (EdgeData.multi [none, some 3]) = none ∧
    relaxAll 0 0 [(1, EdgeData.multi [none, some 3])]
        (Dict.mk [0, 1] (fun _ => (⊤ : EDist))) (Dict.mk [0, 1] (fun _ => none)) [] =
      relaxAll 0 0 [] (Dict.mk [0, 1] (fun _ => (⊤ : EDist)))
        (Dict.mk [0, 1] (fun _ => none)) [] :=
  ⟨rfl, relax_skips_weightless 0 0 1 (EdgeData.multi [none, some 3]) []
    (Dict.mk [0, 1] (fun _ => (⊤ : EDist))) (Dict.mk [0, 1] (fun _ => none)) [] rfl⟩

/-- C2 (counterexample): on the graph with parallel edges of weights 5 (at
multigraph key 0) and 3 (at key 1) between nodes 0 and 1, the engine
traverses at cost 5, not at the minimum parallel weight 3 as claimed. -/
theorem dijkstra_parallel_min_refuted :
    dijkstra cexPar 0 1 = .ok [0, 1] ((5 : ℤ) : EDist) ∧
    minParallel cexPar 0 1 = ((3 : ℤ) : EDist) ∧
    ((5 : ℤ) : EDist) ≠ ((3 : ℤ) : EDist) := by decide

/-- C2 (amended): the effective weight `dijkstra` uses between two adjacent
nodes joined by parallel edges is the 'length' of the edge stored at
multigraph key 0, whatever the other parallel weights are. -/
theorem dijkstra_parallel_uses_key0 (w0 w1 : ℤ) :
    dijkstra (twoNodeMulti 0 1 w0 w1) 0 1 = .ok [0, 1] ((w0 : ℤ) : EDist) := by
  have h : dijkstra (twoNodeMulti 0 1 w0 w1) 0 1 =
      .ok [0, 1] ((0 + w0 : ℤ) : EDist) := rfl
  simpa using h

/-- C1 (counterexample): the parallel-edge graph satisfies every premise of
the claim (well-formed, undirected, non-negative weights, both endpoints
present, destination reachable), yet the returned cost 5 differs from the
true minimum 3 over all paths measured with minimum parallel-edge weights. -/
theorem dijkstra_cost_spec_min_refuted :
    WF cexPar ∧ Symm cexPar ∧ NonnegW cexPar ∧ 0 ∈ cexPar.nodes ∧ 1 ∈ cexPar.nodes ∧
    Reachable cexPar 0 1 ∧
    dijkstra cexPar 0 1 = .ok [0, 1] ((5 : ℤ) : EDist) ∧
    reachMinPar cexPar 0 1 = ((3 : ℤ) : EDist) ∧
    ((5 : ℤ) : EDist) ≠ ((3 : ℤ) : EDist) := by decide

/-- C7 (counterexample): on the parallel-edge graph the returned path is
`[0, 1]` with cost 5, but the sum of minimum parallel-edge weights along it
is 3, so the claimed cost equation fails as stated. -/
theorem dijkstra_walk_min_parallel_refuted :
    dijkstra cexPar 0 1 = .ok [0, 1] ((5 : ℤ) : EDist) ∧
    walkCostW (minParallel cexPar) [0, 1] = ((3 : ℤ) : EDist) ∧
    ((5 : ℤ) : EDist) ≠ ((3 : ℤ) : EDist) := by decide

/-- C5 (counterexample): with the destination 7 absent from the graph (and
the origin present), `dijkstra` fails with the engine's own KeyError (from
`predecessores[destino]`), not with the unknown-node error of the graph
store's neighbor lookup. -/
theorem dijkstra_unknown_node_refuted :
    (7 ∉ ex5.nodes) ∧ (0 ∈ ex5.nodes) ∧
    dijkstra ex5 0 7 = .err Err.keyError ∧
    Err.keyError ≠ Err.unknownNode 7 ∧ Err.keyError ≠ Err.unknownNode 0 := by decide

/-- C6 (counterexample): a graph with the negative edge weight -2 is not
rejected: the query completes normally and returns the path at cost -2; no
invalid-weight detection exists anywhere in the function. -/
theorem dijkstra_invalid_weight_refuted :
    edgeLength (EdgeData.simple (some (-2))) = some (-2) ∧ ((-2 : ℤ) < 0) ∧
    dijkstra (twoNodeSimple 0 1 (-2)) 0 1 = .ok [0, 1] ((-2 : ℤ) : EDist) := by decide

/-- C6 (amended): the code performs no weight validation at all: for every
weight `w`, including negative ones, the two-node graph with that edge
weight is searched normally and `w` is used as the traversal cost. -/
theorem dijkstra_accepts_any_weight (w : ℤ) :
    dijkstra (twoNodeSimple 0 1 w) 0 1 = .ok [0, 1] ((w : ℤ) : EDist) := by
  have h : dijkstra (twoNodeSimple 0 1 w) 0 1 =
      .ok [0, 1] ((0 + w : ℤ) : EDist) := rfl
  simpa using h

/-! heapq pop lemmas -/

lemma pqLe_refl (a : ℤ × Node) : pqLe a a = true := by
  simp [pqLe]

lemma pqLe_trans {a b c : ℤ × Node} (h1 : pqLe a b = true) (h2 : pqLe b c = true) :
    pqLe a c = true := by
  simp only [pqLe, Bool.or_eq_true, Bool.and_eq_true, decide_eq_true_eq] at *
  rcases h1 with h1 | ⟨h1, h1'⟩ <;> rcases h2 with h2 | ⟨h2, h2'⟩
  · exact Or.inl (h1.trans h2)
  · exact Or.inl (h1.trans_eq h2)
  · exact Or.inl (h1.trans_lt h2)
  · exact Or.inr ⟨h1.trans h2, le_trans h1' h2'⟩

lemma pqLe_of_not (a b : ℤ × Node) (h : ¬ pqLe a b = true) : pqLe b a = true := by
  simp only [pqLe, Bool.or_eq_true, Bool.and_eq_true, decide_eq_true_eq] at *
  push_neg at h
  rcases h with ⟨h1, h2⟩
  rcases lt_or_eq_of_le h1 with hlt | heq
  · exact Or.inl hlt
  · exact Or.inr ⟨heq, (h2 heq.symm).le⟩

lemma pqLe_fst (a b : ℤ × Node) (h : pqLe a b = true) : a.1 ≤ b.1 := by
  simp only [pqLe, Bool.or_eq_true, Bool.and_eq_true, decide_eq_true_eq] at h
  rcases h with h | ⟨h, _⟩
  · exact h.le
  · exact h.le

lemma popMin_eq_none {l : List (ℤ × Node)} : popMin l = none ↔ l = [] := by
  cases l with
  | nil => simp [popMin]
  | cons x xs =>
    rw [popMin]
    rcases h : popMin xs with _ | ⟨m, rest⟩ <;> dsimp only
    · simp
    · split <;> simp

lemma popMin_perm :
    ∀ {l : List (ℤ × Node)} {m : ℤ × Node} {rest : List (ℤ × Node)},
      popMin l = some (m, rest) → l.Perm (m :: rest) := by
  intro l
  induction l with
  | nil => intro m rest h; simp [popMin] at h
  | cons x xs ih =>
    intro m rest h
    rw [popMin] at h
    rcases h' : popMin xs with _ | ⟨m', rest'⟩ <;> rw [h'] at h <;> dsimp only at h
    · rcases popMin_eq_none.mp h' with rfl
      cases h
      exact List.Perm.refl _
    · by_cases hle : pqLe x m' = true
      · rw [if_pos hle] at h
        cases h
        exact List.Perm.refl _
      · rw [if_neg hle] at h
        cases h
        exact ((ih h').cons x).trans (List.Perm.swap _ _ _)

lemma popMin_le :
    ∀ {l : List (ℤ × Node)} {m : ℤ × Node} {rest : List (ℤ × Node)},
      popMin l = some (m, rest) → ∀ y ∈ l, pqLe m y = true := by
  intro l
  induction l with
  | nil => intro m rest h; simp [popMin] at h
  | cons x xs ih =>
    intro m rest h y hy
    rw [popMin] at h
    rcases h' : popMin xs with _ | ⟨m', rest'⟩ <;> rw [h'] at h <;> dsimp only at h
    · rcases popMin_eq_none.mp h' with rfl
      cases h
      rcases List.mem_singleton.mp hy with rfl
      exact pqLe_refl _
    · by_cases hle : pqLe x m' = true
      · rw [if_pos hle] at h
        cases h
        rcases List.mem_cons.mp hy with rfl | hy'
        · exact pqLe_refl _
        · exact pqLe_trans hle (ih h' y hy')
      · rw [if_neg hle] at h
        cases h
        rcases List.mem_cons.mp hy with rfl | hy'
        · exact pqLe_of_not _ _ hle
        · exact ih h' y hy'

lemma popMin_length {l : List (ℤ × Node)} {m : ℤ × Node} {rest : List (ℤ × Node)}
    (h : popMin l = some (m, rest)) : l.length = rest.length + 1 := by
  simpa using (popMin_perm h).length_eq

lemma popMin_mem {l : List (ℤ × Node)} {m : ℤ × Node} {rest : List (ℤ × Node)}
    (h : popMin l = some (m, rest)) : m ∈ l :=
  (popMin_perm h).mem_iff.mpr (List.mem_cons_self _ _)

lemma popMin_rest_subset {l : List (ℤ × Node)} {m : ℤ × Node} {rest : List (ℤ × Node)}
    (h : popMin l = some (m, rest)) : ∀ y ∈ rest, y ∈ l := by
  intro y hy
  exact (popMin_perm h).mem_iff.mpr (List.mem_cons_of_mem _ hy)

/-! Dict lemmas -/

lemma Dict.keys_set_of_mem {α : Type} (d : Dict α) (k : Node) (v : α)
    (h : k ∈ d.keys) : (d.set k v).keys = d.keys := by
  simp [Dict.set, h]

lemma Dict.val_set_self {α : Type} (d : Dict α) (k : Node) (v : α) :
    (d.set k v).val k = v := by
  simp [Dict.set]

lemma Dict.val_set_ne {α : Type} (d : Dict α) (k n : Node) (v : α) (h : n ≠ k) :
    (d.set k v).val n = d.val n := by
  simp [Dict.set, h]

lemma Dict.get?_of_mem {α : Type} (d : Dict α) (k : Node) (h : k ∈ d.keys) :
    d.get? k = some (d.val k) := by
  simp [Dict.get?, h]

lemma Dict.get?_of_not_mem {α : Type} (d : Dict α) (k : Node) (h : k ∉ d.keys) :
    d.get? k = none := by
  simp [Dict.get?, h]

/-! Termination measure of the while loop -/

def degSumRem (G : Graph) (visited : List Node) : Nat :=
  ((G.nodes.filter (fun u => decide (u ∉ visited))).map
    (fun u => (G.adj u).length)).sum

def phi (G : Graph) (s : LoopState) : Nat := s.pq.length + degSumRem G s.visited

lemma degSumRem_nil (G : Graph) : degSumRem G [] = degSumAll G := by
  simp [degSumRem, degSumAll]

lemma degSumRem_append (G : Graph) (visited : List Node) (x : Node)
    (hnd : G.nodes.Nodup) (hx : x ∈ G.nodes) (hnv : x ∉ visited) :
    degSumRem G (visited ++ [x]) + (G.adj x).length = degSumRem G visited := by
  classical
  have hfilter : G.nodes.filter (fun u => decide (u ∉ visited ++ [x])) =
      (G.nodes.filter (fun u => decide (u ∉ visited))).filter
        (fun u => u != x) := by
    rw [List.filter_filter]
    apply List.filter_congr
    intro u _
    by_cases h1 : u ∈ visited <;> by_cases h2 : u = x <;>
      simp [h1, h2, List.mem_append]
  have hl : (G.nodes.filter (fun u => decide (u ∉ visited))).Nodup :=
    hnd.filter _
  have hxl : x ∈ G.nodes.filter (fun u => decide (u ∉ visited)) := by
    simp [List.mem_filter, hx, hnv]
  have herase : (G.nodes.filter (fun u => decide (u ∉ visited))).filter
      (fun u => u != x) =
      (G.nodes.filter (fun u => decide (u ∉ visited))).erase x :=
    (hl.erase_eq_filter x).symm
  unfold degSumRem
  rw [hfilter, herase]
  have hperm : (G.nodes.filter (fun u => decide (u ∉ visited))).Perm
      (x :: (G.nodes.filter (fun u => decide (u ∉ visited))).erase x) :=
    List.perm_cons_erase hxl
  rw [(hperm.map (fun u => (G.adj u).length)).sum_eq]
  simp [Nat.add_comm]

/-! Path enumeration lemmas -/

lemma mem_partialPermsF :
    ∀ (n : Nat) (pool : List Node) (p : List Node), pool.Nodup →
      (p ∈ partialPermsF n pool ↔
        p.Nodup ∧ p.length ≤ n ∧ ∀ x ∈ p, x ∈ pool) := by
  intro n
  induction n with
  | zero =>
    intro pool p _
    simp only [partialPermsF, List.mem_singleton]
    constructor
    · rintro rfl; simp
    · rintro ⟨_, hlen, _⟩
      exact List.length_eq_zero.mp (Nat.le_zero.mp hlen)
  | succ n ih =>
    intro pool p hnd
    simp only [partialPermsF, List.mem_cons, List.mem_flatMap, List.mem_map]
    constructor
    · rintro (rfl | ⟨a, ha, t, ht, rfl⟩)
      · simp
      · obtain ⟨h1, h2, h3⟩ := (ih (pool.erase a) t (hnd.erase a)).mp ht
        refine ⟨List.nodup_cons.mpr ⟨?_, h1⟩, by simpa using h2, ?_⟩
        · intro hat
          exact (hnd.mem_erase_iff.mp (h3 a hat)).1 rfl
        · intro x hx
          rcases List.mem_cons.mp hx with rfl | hx'
          · exact ha
          · exact (hnd.mem_erase_iff.mp (h3 x hx')).2
    · rintro ⟨hp, hlen, hsub⟩
      cases p with
      | nil => exact Or.inl rfl
      | cons a t =>
        obtain ⟨hat, ht⟩ := List.nodup_cons.mp hp
        refine Or.inr ⟨a, hsub a (List.mem_cons_self _ _), t, ?_, rfl⟩
        refine (ih (pool.erase a) t (hnd.erase a)).mpr ⟨ht, by simpa using hlen, ?_⟩
        intro x hx
        exact hnd.mem_erase_iff.mpr
          ⟨fun hxa => hat (hxa ▸ hx), hsub x (List.mem_cons_of_mem _ hx)⟩

lemma nodup_subset_length {p l : List Node} (hp : p.Nodup) (hsub : ∀ x ∈ p, x ∈ l) :
    p.length ≤ l.length :=
  (List.subperm_of_subset hp hsub).length_le

lemma mem_candidates {G : Graph} (hnd : G.nodes.Nodup) {o d : Node} {p : List Node} :
    p ∈ candidates G o d ↔
      p.Nodup ∧ (∀ x ∈ p, x ∈ G.nodes) ∧ p.head? = some o ∧ p.getLast? = some d := by
  unfold candidates
  rw [List.mem_filter]
  rw [mem_partialPermsF _ _ _ hnd]
  constructor
  · rintro ⟨⟨h1, _, h3⟩, h4⟩
    simp only [Bool.and_eq_true, decide_eq_true_eq] at h4
    exact ⟨h1, h3, h4.1, h4.2⟩
  · rintro ⟨h1, h2, h3, h4⟩
    refine ⟨⟨h1, nodup_subset_length h1 h2, h2⟩, ?_⟩
    simp only [Bool.and_eq_true, decide_eq_true_eq]
    exact ⟨h3, h4⟩

lemma candidates_ne_nil {G : Graph} (hnd : G.nodes.Nodup) {o d : Node} {p : List Node}
    (h : p ∈ candidates G o d) : p ≠ [] := by
  intro h0
  subst h0
  simp [mem_candidates hnd] at h

lemma singleton_mem_candidates {G : Graph} (hnd : G.nodes.Nodup) {o : Node}
    (ho : o ∈ G.nodes) : [o] ∈ candidates G o o := by
  rw [mem_candidates hnd]
  simp [ho]

/-- A candidate path of `G` from `o` to `u`, not containing `v`, extends by
the edge `u`-`v` to a candidate path from `o` to `v`. -/
lemma candidates_extend {G : Graph} (hnd : G.nodes.Nodup) {o u v : Node}
    {p : List Node} (hp : p ∈ candidates G o u) (hv : v ∈ G.nodes) (hvp : v ∉ p) :
    p ++ [v] ∈ candidates G o v := by
  rw [mem_candidates hnd] at hp ⊢
  obtain ⟨h1, h2, h3, h4⟩ := hp
  have hne : p ≠ [] := by rintro rfl; simp at h3
  refine ⟨?_, ?_, ?_, ?_⟩
  · rw [List.nodup_append]
    exact ⟨h1, List.nodup_singleton v, by simpa using hvp⟩
  · intro x hx
    rcases List.mem_append.mp hx with hx' | hx'
    · exact h2 x hx'
    · rcases List.mem_singleton.mp hx' with rfl
      exact hv
  · rwa [List.head?_append_of_ne_nil _ hne]
  · simp [List.getLast?_append]

/-- A prefix of a candidate path, cut at an occurrence of `m`, is a
candidate path to `m`. -/
lemma candidates_prefix {G : Graph} (hnd : G.nodes.Nodup) {o d : Node}
    (xs : List Node) (m : Node) (ys : List Node) {p : List Node}
    (hp : p ∈ candidates G o d) (hsplit : p = xs ++ m :: ys) :
    xs ++ [m] ∈ candidates G o m := by
  subst hsplit
  rw [mem_candidates hnd] at hp ⊢
  obtain ⟨h1, h2, h3, h4⟩ := hp
  have hsub : (xs ++ [m]).Sublist (xs ++ m :: ys) :=
    List.Sublist.append_left ((List.nil_sublist ys).cons₂ m) xs
  refine ⟨hsub.nodup h1, ?_, ?_, ?_⟩
  · intro x hx
    exact h2 x (hsub.subset hx)
  · cases xs with
    | nil => simpa using h3
    | cons a xsTl =>
      rw [List.head?_append_of_ne_nil _ (by simp)] at h3 ⊢
      exact h3
  · simp [List.getLast?_concat]


/-! Edge and chain lemmas -/

lemma adjacentB_of_mem {G : Graph} {x v : Node} {e : EdgeData}
    (h : (v, e) ∈ G.adj x) : adjacentB G x v = true := by
  unfold adjacentB
  rw [List.any_eq_true]
  exact ⟨(v, e), h, by simp⟩

lemma chainB_cons₂ (G : Graph) (a b : Node) (t : List Node) :
    chainB G (a :: b :: t) = (adjacentB G a b && chainB G (b :: t)) := rfl

lemma chainB_concat {G : Graph} :
    ∀ {p : List Node} {u v : Node}, chainB G p = true → p.getLast? = some u →
      adjacentB G u v = true → chainB G (p ++ [v]) = true := by
  intro p
  induction p with
  | nil => intro u v h _ _; simp [chainB] at h
  | cons a t ih =>
    intro u v h hlast hadj
    cases t with
    | nil =>
      simp only [List.getLast?_singleton, Option.some.injEq] at hlast
      subst hlast
      simpa [chainB] using hadj
    | cons b t2 =>
      rw [chainB_cons₂, Bool.and_eq_true] at h
      have hlast' : (b :: t2).getLast? = some u := by
        simpa [List.getLast?_cons_cons] using hlast
      have hch := ih h.2 hlast' hadj
      simp only [List.cons_append]
      rw [chainB_cons₂, Bool.and_eq_true]
      exact ⟨h.1, hch⟩

lemma chainB_prefix {G : Graph} :
    ∀ (xs : List Node) {m : Node} (ys : List Node),
      chainB G (xs ++ m :: ys) = true → chainB G (xs ++ [m]) = true := by
  intro xs
  induction xs with
  | nil => intro m ys _; simp [chainB]
  | cons a t ih =>
    intro m ys h
    cases t with
    | nil =>
      simp only [List.nil_append, List.cons_append] at h ⊢
      rw [chainB_cons₂, Bool.and_eq_true] at h
      rw [chainB_cons₂, Bool.and_eq_true]
      exact ⟨h.1, by simp [chainB]⟩
    | cons b t2 =>
      simp only [List.cons_append] at h ⊢
      rw [chainB_cons₂, Bool.and_eq_true] at h
      rw [chainB_cons₂, Bool.and_eq_true]
      exact ⟨h.1, ih ys h.2⟩

lemma Reachable_self {G : Graph} (hnd : G.nodes.Nodup) {o : Node}
    (ho : o ∈ G.nodes) : Reachable G o o :=
  ⟨[o], singleton_mem_candidates hnd ho, by simp [chainB]⟩

lemma Reachable_extend {G : Graph} (hnd : G.nodes.Nodup) {o x v : Node}
    {e : EdgeData} (hr : Reachable G o x) (he : (v, e) ∈ G.adj x)
    (hv : v ∈ G.nodes) : Reachable G o v := by
  obtain ⟨p, hp, hchain⟩ := hr
  by_cases hvp : v ∈ p
  · obtain ⟨xs, ys, rfl⟩ := List.append_of_mem hvp
    exact ⟨xs ++ [v], candidates_prefix hnd xs v ys hp rfl, chainB_prefix xs ys hchain⟩
  · have hlast : p.getLast? = some x := ((mem_candidates hnd).mp hp).2.2.2
    exact ⟨p ++ [v], candidates_extend hnd hp hv hvp,
      chainB_concat hchain hlast (adjacentB_of_mem he)⟩

lemma mem_effWeights {G : Graph} {u v : Node} {w : ℤ} :
    w ∈ effWeights G u v ↔ ∃ e, (v, e) ∈ G.adj u ∧ edgeLength e = some w := by
  unfold effWeights
  rw [List.mem_filterMap]
  constructor
  · rintro ⟨⟨v', e⟩, hmem, hval⟩
    by_cases hv : v' = v
    · subst hv
      rw [if_pos rfl] at hval
      exact ⟨e, hmem, hval⟩
    · rw [if_neg hv] at hval
      cases hval
  · rintro ⟨e, hmem, hval⟩
    exact ⟨(v, e), hmem, by simpa using hval⟩

/-! Minimum lemmas -/

lemma listMin_le {l : List ℤ} {w : ℤ} (h : w ∈ l) : listMin l ≤ (w : EDist) := by
  induction l with
  | nil => cases h
  | cons x xs ih =>
    rcases List.mem_cons.mp h with rfl | h'
    · exact min_le_left _ _
    · exact le_trans (min_le_right _ _) (ih h')

lemma listMin_cases (l : List ℤ) :
    listMin l = ⊤ ∨ ∃ w ∈ l, listMin l = (w : EDist) := by
  induction l with
  | nil => exact Or.inl rfl
  | cons x xs ih =>
    rcases ih with h | ⟨w, hw, hmin⟩
    · refine Or.inr ⟨x, List.mem_cons_self _ _, ?_⟩
      show min ((x : ℤ) : EDist) (listMin xs) = _
      rw [h]
      exact min_top_right _
    · rcases le_total ((x : ℤ) : EDist) (listMin xs) with hle | hle
      · refine Or.inr ⟨x, List.mem_cons_self _ _, ?_⟩
        show min ((x : ℤ) : EDist) (listMin xs) = _
        exact min_eq_left hle
      · refine Or.inr ⟨w, List.mem_cons_of_mem _ hw, ?_⟩
        show min ((x : ℤ) : EDist) (listMin xs) = _
        rw [min_eq_right hle, hmin]

lemma listMin_nonneg {l : List ℤ} (h : ∀ w ∈ l, 0 ≤ w) : 0 ≤ listMin l := by
  induction l with
  | nil => exact le_top
  | cons x xs ih =>
    refine le_min ?_ (ih (fun w hw => h w (List.mem_cons_of_mem _ hw)))
    rw [show ((0 : EDist)) = ((0 : ℤ) : EDist) from rfl]
    exact WithTop.coe_le_coe.mpr (h x (List.mem_cons_self _ _))

lemma eWeightEff_le_of_mem {G : Graph} {u v : Node} {w : ℤ}
    (h : w ∈ effWeights G u v) : eWeightEff G u v ≤ (w : EDist) :=
  listMin_le h

lemma eWeightEff_nonneg {G : Graph} (hnn : NonnegW G) {u : Node}
    (hu : u ∈ G.nodes) (v : Node) : 0 ≤ eWeightEff G u v := by
  apply listMin_nonneg
  intro w hw
  obtain ⟨e, hmem, hval⟩ := mem_effWeights.mp hw
  exact hnn u hu (v, e) hmem w (by simp [hval])

lemma eWeightEff_cases (G : Graph) (u v : Node) :
    eWeightEff G u v = ⊤ ∨ ∃ w ∈ effWeights G u v, eWeightEff G u v = (w : EDist) :=
  listMin_cases _


/-! Walk cost lemmas -/

lemma walkCostW_cons₂ (W : Node → Node → EDist) (a b : Node) (t : List Node) :
    walkCostW W (a :: b :: t) = W a b + walkCostW W (b :: t) := rfl

lemma walkCost_split (W : Node → Node → EDist) :
    ∀ (xs : List Node) (m : Node) (ys : List Node),
      walkCostW W (xs ++ m :: ys) =
        walkCostW W (xs ++ [m]) + walkCostW W (m :: ys) := by
  intro xs
  induction xs with
  | nil =>
    intro m ys
    show walkCostW W (m :: ys) = walkCostW W [m] + walkCostW W (m :: ys)
    rw [show walkCostW W [m] = 0 from rfl, zero_add]
  | cons a t ih =>
    intro m ys
    cases t with
    | nil =>
      show walkCostW W (a :: m :: ys) = walkCostW W [a, m] + walkCostW W (m :: ys)
      rw [walkCostW_cons₂, walkCostW_cons₂,
        show walkCostW W [m] = 0 from rfl, add_zero]
    | cons b t2 =>
      simp only [List.cons_append]
      rw [walkCostW_cons₂, walkCostW_cons₂]
      have hih := ih m ys
      simp only [List.cons_append] at hih
      rw [hih, add_assoc]

lemma walkCost_concat (W : Node → Node → EDist) {p : List Node} {u : Node}
    (hlast : p.getLast? = some u) (v : Node) :
    walkCostW W (p ++ [v]) = walkCostW W p + W u v := by
  obtain ⟨xs, rfl⟩ := List.getLast?_eq_some_iff.mp hlast
  rw [List.append_assoc]
  simp only [List.singleton_append]
  rw [walkCost_split W xs u [v], walkCostW_cons₂,
    show walkCostW W [v] = 0 from rfl, add_zero]

lemma walkCost_nonneg {W : Node → Node → EDist} :
    ∀ {l : List Node}, (∀ a ∈ l, ∀ b, 0 ≤ W a b) → 0 ≤ walkCostW W l := by
  intro l
  induction l with
  | nil => intro _; exact le_top
  | cons a t ih =>
    intro h
    cases t with
    | nil => exact le_refl _
    | cons b t2 =>
      rw [walkCostW_cons₂]
      exact add_nonneg (h a (List.mem_cons_self _ _) b)
        (ih (fun x hx c => h x (List.mem_cons_of_mem _ hx) c))

/-! Minimum over candidate paths -/

lemma eListMin_le {l : List EDist} {x : EDist} (h : x ∈ l) :
    l.foldr min ⊤ ≤ x := by
  induction l with
  | nil => cases h
  | cons y ys ih =>
    rcases List.mem_cons.mp h with rfl | h'
    · exact min_le_left _ _
    · exact le_trans (min_le_right _ _) (ih h')

lemma eListMin_cases (l : List EDist) :
    l.foldr min ⊤ = ⊤ ∨ ∃ x ∈ l, l.foldr min ⊤ = x := by
  induction l with
  | nil => exact Or.inl rfl
  | cons y ys ih =>
    rcases ih with h | ⟨x, hx, hmin⟩
    · refine Or.inr ⟨y, List.mem_cons_self _ _, ?_⟩
      show min y (ys.foldr min ⊤) = y
      rw [h]
      exact min_top_right _
    · rcases le_total y (ys.foldr min ⊤) with hle | hle
      · exact Or.inr ⟨y, List.mem_cons_self _ _, min_eq_left hle⟩
      · refine Or.inr ⟨x, List.mem_cons_of_mem _ hx, ?_⟩
        show min y (ys.foldr min ⊤) = x
        rw [min_eq_right hle, hmin]

lemma reachMinW_le {G : Graph} {o d : Node} {W : Node → Node → EDist}
    {p : List Node} (hp : p ∈ candidates G o d) :
    reachMinW G o d W ≤ walkCostW W p :=
  eListMin_le (List.mem_map_of_mem _ hp)

lemma reachMinW_cases (G : Graph) (o d : Node) (W : Node → Node → EDist) :
    reachMinW G o d W = ⊤ ∨
      ∃ p ∈ candidates G o d, reachMinW G o d W = walkCostW W p := by
  rcases eListMin_cases ((candidates G o d).map (walkCostW W)) with h | ⟨x, hx, hmin⟩
  · exact Or.inl h
  · obtain ⟨p, hp, rfl⟩ := List.mem_map.mp hx
    exact Or.inr ⟨p, hp, hmin⟩

lemma reachMin_nonneg {G : Graph} (hwf : WF G) (hnn : NonnegW G) (o d : Node) :
    0 ≤ reachMin G o d := by
  rcases reachMinW_cases G o d (eWeightEff G) with h | ⟨p, hp, hmin⟩
  · rw [reachMin, h]; exact le_top
  · rw [reachMin, hmin]
    apply walkCost_nonneg
    intro a ha b
    exact eWeightEff_nonneg hnn (((mem_candidates hwf.1).mp hp).2.1 a ha) b

lemma reachMin_self_le {G : Graph} (hnd : G.nodes.Nodup) {o : Node}
    (ho : o ∈ G.nodes) : reachMin G o o ≤ 0 := by
  have h := reachMinW_le (W := eWeightEff G) (singleton_mem_candidates hnd ho)
  simpa [walkCostW] using h

lemma reachMin_self {G : Graph} (hwf : WF G) (hnn : NonnegW G) {o : Node}
    (ho : o ∈ G.nodes) : reachMin G o o = 0 :=
  le_antisymm (reachMin_self_le hwf.1 ho) (reachMin_nonneg hwf hnn o o)

/-- Triangle inequality for the minimum path cost, along the engine's
effective weights. Needs non-negative weights: cutting the path at an
earlier occurrence of `v` must not raise its cost. -/
lemma reachMin_triangle {G : Graph} (hwf : WF G) (hnn : NonnegW G)
    (o u v : Node) (hv : v ∈ G.nodes) :
    reachMin G o v ≤ reachMin G o u + eWeightEff G u v := by
  rcases reachMinW_cases G o u (eWeightEff G) with h | ⟨p, hp, hmin⟩
  · have hre : reachMin G o u = ⊤ := h
    rw [hre, top_add]
    exact le_top
  · have hre : reachMin G o u = walkCostW (eWeightEff G) p := hmin
    rw [hre]
    obtain ⟨hnd, hcl⟩ := hwf
    obtain ⟨hpnd, hpsub, hphead, hplast⟩ := (mem_candidates hnd).mp hp
    by_cases hvp : v ∈ p
    · obtain ⟨xs, ys, rfl⟩ := List.append_of_mem hvp
      have hpre : xs ++ [v] ∈ candidates G o v := candidates_prefix hnd xs v ys hp rfl
      have h1 : reachMin G o v ≤ walkCostW (eWeightEff G) (xs ++ [v]) :=
        reachMinW_le hpre
      have h2 : walkCostW (eWeightEff G) (xs ++ v :: ys) =
          walkCostW (eWeightEff G) (xs ++ [v]) +
            walkCostW (eWeightEff G) (v :: ys) :=
        walkCost_split _ xs v ys
      have h3 : 0 ≤ walkCostW (eWeightEff G) (v :: ys) := by
        apply walkCost_nonneg
        intro a ha b
        exact eWeightEff_nonneg hnn
          (hpsub a (by simp [List.mem_append, ha])) b
      calc reachMin G o v ≤ walkCostW (eWeightEff G) (xs ++ [v]) := h1
        _ ≤ walkCostW (eWeightEff G) (xs ++ [v]) +
              walkCostW (eWeightEff G) (v :: ys) := le_add_of_nonneg_right h3
        _ = walkCostW (eWeightEff G) (xs ++ v :: ys) := h2.symm
        _ ≤ walkCostW (eWeightEff G) (xs ++ v :: ys) + eWeightEff G u v :=
              le_add_of_nonneg_right (eWeightEff_nonneg hnn
                (hpsub u (List.mem_of_mem_getLast? hplast)) v)
    · have hext : p ++ [v] ∈ candidates G o v := candidates_extend hnd hp hv hvp
      have h1 : reachMin G o v ≤ walkCostW (eWeightEff G) (p ++ [v]) :=
        reachMinW_le hext
      rwa [walkCost_concat _ hplast] at h1

lemma relaxAll_cons (da : ℤ) (u : Node) (v : Node) (e : EdgeData)
    (rest : List (Node × EdgeData)) (dist : Dict EDist)
    (pred : Dict (Option Node)) (pq : List (ℤ × Node)) :
    relaxAll da u ((v, e) :: rest) dist pred pq =
      match edgeLength e with
      | none => relaxAll da u rest dist pred pq
      | some peso =>
        match dist.get? v with
        | none => .err .keyError
        | some dv =>
          if ((da + peso : ℤ) : EDist) < dv then
            relaxAll da u rest (dist.set v ((da + peso : ℤ) : EDist))
              (pred.set v (some u)) ((da + peso, v) :: pq)
          else relaxAll da u rest dist pred pq := rfl

/-- Structural facts about one full relaxation pass: it succeeds whenever
every neighbor is a `distancias` key, preserves both key sets, pushes at
most one entry per neighbor, pushes only neighbors, and rewrites
predecessors only of neighbors (to the current node). -/
lemma relaxAll_ok (da : ℤ) (u : Node) :
    ∀ (entries : List (Node × EdgeData)) (dist : Dict EDist)
      (pred : Dict (Option Node)) (pq : List (ℤ × Node)),
      (∀ pe ∈ entries, pe.1 ∈ dist.keys) →
      (∀ pe ∈ entries, pe.1 ∈ pred.keys) →
      ∃ dist' pred' pq',
        relaxAll da u entries dist pred pq = .ok dist' pred' pq' ∧
        dist'.keys = dist.keys ∧
        pred'.keys = pred.keys ∧
        pq'.length ≤ pq.length + entries.length ∧
        (∀ y ∈ pq', y ∈ pq ∨ ∃ pe ∈ entries, pe.1 = y.2) ∧
        (∀ v, pred'.val v = pred.val v ∨
          (pred'.val v = some u ∧ ∃ pe ∈ entries, pe.1 = v)) := by
  intro entries
  induction entries with
  | nil =>
    intro dist pred pq _ _
    exact ⟨dist, pred, pq, rfl, rfl, rfl, by simp, fun y hy => Or.inl hy,
      fun v => Or.inl rfl⟩
  | cons pe rest ih =>
    obtain ⟨v, e⟩ := pe
    intro dist pred pq h hpkeys
    rw [relaxAll_cons]
    rcases he : edgeLength e with _ | w <;> dsimp only
    · obtain ⟨dist', pred', pq', hrel, hdk, hpk, hlen, hpqm, hpredm⟩ :=
        ih dist pred pq (fun pe hpe => h pe (List.mem_cons_of_mem _ hpe))
          (fun pe hpe => hpkeys pe (List.mem_cons_of_mem _ hpe))
      refine ⟨dist', pred', pq', hrel, hdk, hpk,
        by have hc : ((v, e) :: rest).length = rest.length + 1 := rfl; omega, ?_, ?_⟩
      · intro y hy
        rcases hpqm y hy with hy' | ⟨pe', hpe', hpe2⟩
        · exact Or.inl hy'
        · exact Or.inr ⟨pe', List.mem_cons_of_mem _ hpe', hpe2⟩
      · intro x
        rcases hpredm x with hx | ⟨hx, pe', hpe', hpe2⟩
        · exact Or.inl hx
        · exact Or.inr ⟨hx, pe', List.mem_cons_of_mem _ hpe', hpe2⟩
    · have hvk : v ∈ dist.keys := h (v, e) (List.mem_cons_self _ _)
      rw [Dict.get?_of_mem _ _ hvk]
      dsimp only
      by_cases hlt : ((da + w : ℤ) : EDist) < dist.val v
      · rw [if_pos hlt]
        have hvpk : v ∈ pred.keys := hpkeys (v, e) (List.mem_cons_self _ _)
        have hkeys1 : ∀ pe ∈ rest, pe.1 ∈ (dist.set v ((da + w : ℤ) : EDist)).keys := by
          intro pe hpe
          rw [Dict.keys_set_of_mem _ _ _ hvk]
          exact h pe (List.mem_cons_of_mem _ hpe)
        have hkeys2 : ∀ pe ∈ rest, pe.1 ∈ (pred.set v (some u)).keys := by
          intro pe hpe
          rw [Dict.keys_set_of_mem _ _ _ hvpk]
          exact hpkeys pe (List.mem_cons_of_mem _ hpe)
        obtain ⟨dist', pred', pq', hrel, hdk, hpk, hlen, hpqm, hpredm⟩ :=
          ih (dist.set v ((da + w : ℤ) : EDist)) (pred.set v (some u))
            ((da + w, v) :: pq) hkeys1 hkeys2
        refine ⟨dist', pred', pq', hrel, ?_, ?_, ?_, ?_, ?_⟩
        · rw [hdk, Dict.keys_set_of_mem _ _ _ hvk]
        · rw [hpk, Dict.keys_set_of_mem _ _ _ hvpk]
        · have hc : ((v, e) :: rest).length = rest.length + 1 := rfl
          have hc2 : ((da + w, v) :: pq).length = pq.length + 1 := rfl
          omega
        · intro y hy
          rcases hpqm y hy with hy' | ⟨pe', hpe', hpe2⟩
          · rcases List.mem_cons.mp hy' with rfl | hy''
            · exact Or.inr ⟨(v, e), List.mem_cons_self _ _, rfl⟩
            · exact Or.inl hy''
          · exact Or.inr ⟨pe', List.mem_cons_of_mem _ hpe', hpe2⟩
        · intro x
          rcases hpredm x with hx | ⟨hx, pe', hpe', hpe2⟩
          · by_cases hxv : x = v
            · subst hxv
              rw [Dict.val_set_self] at hx
              exact Or.inr ⟨hx, (x, e), List.mem_cons_self _ _, rfl⟩
            · rw [Dict.val_set_ne _ _ _ _ hxv] at hx
              exact Or.inl hx
          · exact Or.inr ⟨hx, pe', List.mem_cons_of_mem _ hpe', hpe2⟩
      · rw [if_neg hlt]
        obtain ⟨dist', pred', pq', hrel, hdk, hpk, hlen, hpqm, hpredm⟩ :=
          ih dist pred pq (fun pe hpe => h pe (List.mem_cons_of_mem _ hpe))
            (fun pe hpe => hpkeys pe (List.mem_cons_of_mem _ hpe))
        refine ⟨dist', pred', pq', hrel, hdk, hpk,
          by have hc : ((v, e) :: rest).length = rest.length + 1 := rfl; omega, ?_, ?_⟩
        · intro y hy
          rcases hpqm y hy with hy' | ⟨pe', hpe', hpe2⟩
          · exact Or.inl hy'
          · exact Or.inr ⟨pe', List.mem_cons_of_mem _ hpe', hpe2⟩
        · intro x
          rcases hpredm x with hx | ⟨hx, pe', hpe', hpe2⟩
          · exact Or.inl hx
          · exact Or.inr ⟨hx, pe', List.mem_cons_of_mem _ hpe', hpe2⟩


/-- The invariant of the while loop needed for its failure-free runs: keys
of the two dicts never change, queued nodes are graph nodes, and queued or
predecessor-linked nodes are reachable from the origin. -/
structure SafeInv (G : Graph) (o : Node) (s : LoopState) : Prop where
  graphEq : s.graph = G
  distKeys : s.dist.keys = G.nodes
  predKeys : s.pred.keys = G.nodes
  pqNodes : ∀ y ∈ s.pq, y.2 ∈ G.nodes
  pqReach : ∀ y ∈ s.pq, Reachable G o y.2
  predReach : ∀ v u, s.pred.val v = some u → Reachable G o v

lemma SafeInv_initial (G : Graph) (o : Node) (hnd : G.nodes.Nodup)
    (ho : o ∈ G.nodes) : SafeInv G o (initState G o) := by
  refine ⟨rfl, ?_, rfl, ?_, ?_, ?_⟩
  · show (if o ∈ G.nodes then G.nodes else o :: G.nodes) = G.nodes
    rw [if_pos ho]
  · intro y hy
    rcases List.mem_singleton.mp hy with rfl
    exact ho
  · intro y hy
    rcases List.mem_singleton.mp hy with rfl
    exact Reachable_self hnd ho
  · intro v u h
    cases h

lemma loop_safe (G : Graph) (o destino : Node) (hwf : WF G) :
    ∀ (fuel : Nat) (s : LoopState), phi G s < fuel → SafeInv G o s →
      ∃ s', loop destino fuel s = .ok s' ∧ SafeInv G o s' := by
  intro fuel
  induction fuel with
  | zero =>
    intro s hphi _
    exact absurd hphi (Nat.not_lt_zero _)
  | succ n ih =>
    intro s hphi hinv
    rw [loop_succ]
    rcases hpop : popMin s.pq with _ | ⟨⟨da, na⟩, rest⟩ <;> dsimp only
    · exact ⟨s, rfl, hinv⟩
    · have hna_pq : (da, na) ∈ s.pq := popMin_mem hpop
      have hlen : s.pq.length = rest.length + 1 := popMin_length hpop
      have hrest_inv : SafeInv G o { s with pq := rest } :=
        ⟨hinv.graphEq, hinv.distKeys, hinv.predKeys,
         fun y hy => hinv.pqNodes y (popMin_rest_subset hpop y hy),
         fun y hy => hinv.pqReach y (popMin_rest_subset hpop y hy),
         hinv.predReach⟩
      by_cases hd : na = destino
      · rw [if_pos hd]
        exact ⟨{ s with pq := rest }, rfl, hrest_inv⟩
      · rw [if_neg hd]
        by_cases hv : na ∈ s.visited
        · rw [if_pos hv]
          have hphi' : phi G { s with pq := rest } < n := by
            have h1 : phi G s = s.pq.length + degSumRem G s.visited := rfl
            have h2 : phi G { s with pq := rest } =
                rest.length + degSumRem G s.visited := rfl
            omega
          exact ih { s with pq := rest } hphi' hrest_inv
        · rw [if_neg hv]
          have hna_nodes : na ∈ G.nodes := hinv.pqNodes _ hna_pq
          have hna_g : na ∈ s.graph.nodes := by rw [hinv.graphEq]; exact hna_nodes
          rw [if_pos hna_g]
          have hadj_eq : s.graph.adj na = G.adj na := by rw [hinv.graphEq]
          have hkeys : ∀ pe ∈ s.graph.adj na, pe.1 ∈ s.dist.keys := by
            intro pe hpe
            rw [hinv.distKeys]
            rw [hadj_eq] at hpe
            exact hwf.2 na hna_nodes pe hpe
          have hkeys2 : ∀ pe ∈ s.graph.adj na, pe.1 ∈ s.pred.keys := by
            intro pe hpe
            rw [hinv.predKeys]
            rw [hadj_eq] at hpe
            exact hwf.2 na hna_nodes pe hpe
          obtain ⟨dist', pred', pq', hrel, hdk, hpk, hlen', hpqm, hpredm⟩ :=
            relaxAll_ok da na (s.graph.adj na) s.dist s.pred rest hkeys hkeys2
          rw [hrel]
          dsimp only
          have hreach_na : Reachable G o na := hinv.pqReach _ hna_pq
          have hinv' : SafeInv G o { s with dist := dist', pred := pred', visited := s.visited ++ [na], pq := pq' } := by
            refine ⟨hinv.graphEq, by rw [hdk]; exact hinv.distKeys,
              by rw [hpk]; exact hinv.predKeys, ?_, ?_, ?_⟩
            · intro y hy
              rcases hpqm y hy with hy' | ⟨pe, hpe, hpe2⟩
              · exact hinv.pqNodes y (popMin_rest_subset hpop y hy')
              · rw [hadj_eq] at hpe
                rw [← hpe2]
                exact hwf.2 na hna_nodes pe hpe
            · intro y hy
              rcases hpqm y hy with hy' | ⟨pe, hpe, hpe2⟩
              · exact hinv.pqReach y (popMin_rest_subset hpop y hy')
              · rw [hadj_eq] at hpe
                have hmem : (pe.1, pe.2) ∈ G.adj na := hpe
                rw [← hpe2]
                exact Reachable_extend hwf.1 hreach_na hmem
                  (hwf.2 na hna_nodes pe hpe)
            · intro v u h
              rcases hpredm v with hv' | ⟨hv', pe, hpe, hpe2⟩
              · exact hinv.predReach v u (hv' ▸ h)
              · rw [hadj_eq] at hpe
                have hmem : (pe.1, pe.2) ∈ G.adj na := hpe
                rw [← hpe2]
                exact Reachable_extend hwf.1 hreach_na hmem
                  (hwf.2 na hna_nodes pe hpe)
          have hphi' : phi G { s with dist := dist', pred := pred', visited := s.visited ++ [na], pq := pq' } < n := by
            have h1 : phi G s = s.pq.length + degSumRem G s.visited := rfl
            have h2 : phi G { s with dist := dist', pred := pred', visited := s.visited ++ [na], pq := pq' } = pq'.length + degSumRem G (s.visited ++ [na]) := rfl
            have h3 : degSumRem G (s.visited ++ [na]) + (G.adj na).length =
                degSumRem G s.visited :=
              degSumRem_append G s.visited na hwf.1 hna_nodes hv
            have h4 : pq'.length ≤ rest.length + (s.graph.adj na).length := hlen'
            rw [hadj_eq] at h4
            omega
          exact ih _ hphi' hinv'


/-- C4: for every well-formed graph and origin/destination pair both present
in it, with the destination distinct from the origin and unreachable from it
along edges, `dijkstra` returns the empty path with cost `+infinity` as a
normal result, raising no error (this holds for arbitrary, even negative,
edge weights). -/
theorem dijkstra_unreachable (G : Graph) (o d : Node) (hwf : WF G)
    (ho : o ∈ G.nodes) (hd : d ∈ G.nodes) (hne : d ≠ o)
    (hunreach : ¬ Reachable G o d) :
    dijkstra G o d = .ok [] (⊤ : EDist) := by
  unfold dijkstra dijkstraLoopOut
  have hphi0 : phi G (initState G o) < degSumAll G + 2 := by
    have h1 : phi G (initState G o) = 1 + degSumRem G [] := rfl
    rw [degSumRem_nil] at h1
    omega
  obtain ⟨s', hs', hinv'⟩ := loop_safe G o d hwf (degSumAll G + 2)
    (initState G o) hphi0 (SafeInv_initial G o hwf.1 ho)
  rw [hs']
  dsimp only
  have hdk : d ∈ s'.pred.keys := by rw [hinv'.predKeys]; exact hd
  rw [Dict.get?_of_mem _ _ hdk]
  dsimp only
  have hvd : s'.pred.val d = none := by
    cases hval : s'.pred.val d with
    | none => rfl
    | some u => exact absurd (hinv'.predReach d u hval) hunreach
  rw [hvd, if_pos ⟨rfl, hne⟩]

theorem dijkstra_unreachable_witness :
    WF ex5 ∧ 0 ∈ ex5.nodes ∧ 4 ∈ ex5.nodes ∧ (4 : Node) ≠ 0 ∧
    ¬ Reachable ex5 0 4 ∧ dijkstra ex5 0 4 = .ok [] (⊤ : EDist) :=
  ⟨by decide, by decide, by decide, by decide, by decide,
    dijkstra_unreachable ex5 0 4 (by decide) (by decide) (by decide)
      (by decide) (by decide)⟩

/-- C5 (amended): when the origin or the destination is missing from a
well-formed graph, `dijkstra` always fails, but not always with the graph
store's unknown-node error: an absent origin distinct from the destination
fails with `unknownNode` raised by the neighbor lookup, while an absent
destination (or absent origin equal to the destination) fails with the
KeyError of the engine's own `predecessores[destino]` read. -/
theorem dijkstra_absent_node_fails (G : Graph) (o d : Node) (hwf : WF G)
    (habs : o ∉ G.nodes ∨ d ∉ G.nodes) :
    dijkstra G o d =
      .err (if o ∉ G.nodes ∧ o ≠ d then Err.unknownNode o else Err.keyError) := by
  by_cases ho : o ∈ G.nodes
  · have hd : d ∉ G.nodes := by
      rcases habs with h | h
      · exact absurd ho h
      · exact h
    rw [if_neg (by intro h; exact h.1 ho)]
    unfold dijkstra dijkstraLoopOut
    have hphi0 : phi G (initState G o) < degSumAll G + 2 := by
      have h1 : phi G (initState G o) = 1 + degSumRem G [] := rfl
      rw [degSumRem_nil] at h1
      omega
    obtain ⟨s', hs', hinv'⟩ := loop_safe G o d hwf (degSumAll G + 2)
      (initState G o) hphi0 (SafeInv_initial G o hwf.1 ho)
    rw [hs']
    dsimp only
    have hdk : d ∉ s'.pred.keys := by rw [hinv'.predKeys]; exact hd
    rw [Dict.get?_of_not_mem _ _ hdk]
  · by_cases hod : o = d
    · rw [if_neg (by intro h; exact h.2 hod)]
      subst hod
      unfold dijkstra dijkstraLoopOut initState
      rw [show degSumAll G + 2 = (degSumAll G + 1) + 1 from rfl, loop_succ]
      simp only [popMin, if_true]
      rw [Dict.get?_of_not_mem _ _ ho]
    · rw [if_pos ⟨ho, hod⟩]
      unfold dijkstra dijkstraLoopOut initState
      rw [show degSumAll G + 2 = (degSumAll G + 1) + 1 from rfl, loop_succ]
      simp only [popMin]
      rw [if_neg hod, if_neg (List.not_mem_nil o), if_neg ho]

theorem dijkstra_absent_node_fails_witness :
    WF ex5 ∧ ((7 : Node) ∉ ex5.nodes) ∧
    dijkstra ex5 0 7 =
      .err (if (0 : Node) ∉ ex5.nodes ∧ (0 : Node) ≠ 7 then Err.unknownNode 0
        else Err.keyError) :=
  ⟨by decide, by decide,
    dijkstra_absent_node_fails ex5 0 7 (by decide) (Or.inr (by decide))⟩

lemma indexOf_concat_self {l : List Node} {a : Node} (h : a ∉ l) :
    (l ++ [a]).indexOf a = l.length := by
  induction l with
  | nil => simp
  | cons x t ih =>
    simp only [List.mem_cons, not_or] at h
    rw [List.cons_append, List.indexOf_cons_ne _ (by simpa using (Ne.symm h.1)),
      ih h.2]
    simp

/-- The full Dijkstra invariant of the while loop, for a run with
non-negative weights from origin `o`: soundness (`hA`), queue completeness
for unvisited touched nodes (`hB`), queue entry sanity (`hH`), completed
relaxation from every visited node (`hC`), optimality of visited labels
(`hD`), and the predecessor-map facts used for path reconstruction. -/
structure DInvCore (G : Graph) (o : Node) (s : LoopState) : Prop where
  graphEq : s.graph = G
  distKeys : s.dist.keys = G.nodes
  predKeys : s.pred.keys = G.nodes
  hA : ∀ v ∈ G.nodes, reachMin G o v ≤ s.dist.val v
  hH : ∀ y ∈ s.pq, y.2 ∈ G.nodes ∧ s.dist.val y.2 ≤ (y.1 : EDist) ∧ 0 ≤ y.1
  hC : ∀ u ∈ s.visited, ∀ v ∈ G.nodes,
        s.dist.val v ≤ s.dist.val u + eWeightEff G u v
  hD : ∀ u ∈ s.visited, s.dist.val u = reachMin G o u
  hVisN : ∀ u ∈ s.visited, u ∈ G.nodes
  hVisF : ∀ u ∈ s.visited, s.dist.val u ≠ ⊤
  hVisNd : s.visited.Nodup
  hO : s.dist.val o ≤ 0
  hPredO : s.pred.val o = none
  hPred : ∀ v ∈ G.nodes, ∀ u, s.pred.val v = some u →
        u ∈ s.visited ∧
          ∃ w ∈ effWeights G u v, s.dist.val v = s.dist.val u + (w : EDist)
  hPredNone : ∀ v ∈ G.nodes, v ≠ o → s.pred.val v = none → s.dist.val v = ⊤
  hPredIdx : ∀ v ∈ G.nodes, ∀ u, s.pred.val v = some u → v ∈ s.visited →
        s.visited.indexOf u < s.visited.indexOf v

/-- `DInvCore` plus queue completeness, which the destination break drops. -/
structure DInv (G : Graph) (o : Node) (s : LoopState) extends
    DInvCore G o s : Prop where
  hB : ∀ v ∈ G.nodes, v ∉ s.visited → s.dist.val v ≠ ⊤ →
        ∃ q : ℤ, s.dist.val v = (q : EDist) ∧ (q, v) ∈ s.pq

lemma first_not_mem_split {visited : List Node} :
    ∀ {p : List Node}, (∃ z ∈ p, z ∉ visited) →
      ∃ pre y suf, p = pre ++ y :: suf ∧ (∀ z ∈ pre, z ∈ visited) ∧
        y ∉ visited := by
  intro p
  induction p with
  | nil => rintro ⟨z, hz, _⟩; cases hz
  | cons a t ih =>
    rintro ⟨z, hz, hznv⟩
    by_cases ha : a ∈ visited
    · have hzt : z ∈ t := by
        rcases List.mem_cons.mp hz with rfl | h
        · exact absurd ha hznv
        · exact h
      obtain ⟨pre, y, suf, heq, hpre, hy⟩ := ih ⟨z, hzt, hznv⟩
      refine ⟨a :: pre, y, suf, by simp [heq], ?_, hy⟩
      intro u hu
      rcases List.mem_cons.mp hu with rfl | h
      · exact ha
      · exact hpre u h
    · exact ⟨[], a, t, rfl, by simp, ha⟩

/-- On any candidate path that leaves the visited set, there is a node `y`
outside the visited set whose distance label already bounds the whole
path cost from below. -/
lemma unvisited_on_path {G : Graph} {o : Node} (hwf : WF G) (hnn : NonnegW G)
    {s : LoopState} (hinv : DInvCore G o s) {p : List Node} {dd : Node}
    (hp : p ∈ candidates G o dd) (hne : ∃ z ∈ p, z ∉ s.visited) :
    ∃ y, y ∈ G.nodes ∧ y ∉ s.visited ∧
      s.dist.val y ≤ walkCostW (eWeightEff G) p := by
  obtain ⟨pre, y, suf, heq, hpreVis, hyNv⟩ := first_not_mem_split hne
  obtain ⟨hpnd, hpsub, hphead, hplast⟩ := (mem_candidates hwf.1).mp hp
  have hyN : y ∈ G.nodes := hpsub y (by rw [heq]; simp)
  refine ⟨y, hyN, hyNv, ?_⟩
  have hsplit : walkCostW (eWeightEff G) p =
      walkCostW (eWeightEff G) (pre ++ [y]) +
        walkCostW (eWeightEff G) (y :: suf) := by
    rw [heq]; exact walkCost_split _ pre y suf
  have hsuf0 : 0 ≤ walkCostW (eWeightEff G) (y :: suf) := by
    apply walkCost_nonneg
    intro a ha b
    refine eWeightEff_nonneg hnn (hpsub a ?_) b
    rw [heq]
    exact List.mem_append_right _ ha
  have hprefix : s.dist.val y ≤ walkCostW (eWeightEff G) (pre ++ [y]) := by
    rcases List.eq_nil_or_concat pre with rfl | ⟨pre0, z, hpre_eq⟩
    · have hyo : y = o := by
        rw [heq] at hphead
        simpa using hphead
      subst hyo
      simpa [walkCostW] using hinv.hO
    · subst hpre_eq
      rw [List.concat_eq_append] at heq hpreVis ⊢
      have hzVis : z ∈ s.visited := hpreVis z (by simp)
      have hpre_cand : pre0 ++ [z] ∈ candidates G o z :=
        candidates_prefix hwf.1 pre0 z (y :: suf) hp (by simp [heq])
      have hz_reach : s.dist.val z = reachMin G o z := hinv.hD z hzVis
      have hz_le : reachMin G o z ≤ walkCostW (eWeightEff G) (pre0 ++ [z]) :=
        reachMinW_le hpre_cand
      have hy_le : s.dist.val y ≤ s.dist.val z + eWeightEff G z y :=
        hinv.hC z hzVis y hyN
      have hconcat : walkCostW (eWeightEff G) ((pre0 ++ [z]) ++ [y]) =
          walkCostW (eWeightEff G) (pre0 ++ [z]) + eWeightEff G z y :=
        walkCost_concat _ (by simp [List.getLast?_concat]) y
      rw [hconcat]
      calc s.dist.val y ≤ s.dist.val z + eWeightEff G z y := hy_le
        _ = reachMin G o z + eWeightEff G z y := by rw [hz_reach]
        _ ≤ walkCostW (eWeightEff G) (pre0 ++ [z]) + eWeightEff G z y :=
            add_le_add_right hz_le _
  calc s.dist.val y ≤ walkCostW (eWeightEff G) (pre ++ [y]) := hprefix
    _ ≤ walkCostW (eWeightEff G) (pre ++ [y]) +
          walkCostW (eWeightEff G) (y :: suf) := le_add_of_nonneg_right hsuf0
    _ = walkCostW (eWeightEff G) p := hsplit.symm


/-- When the lazy-deletion pop extracts an unvisited node, the popped key
equals the node's current label, which equals its true minimum distance.
This is the label-setting step of the algorithm. -/
lemma popped_key_eq {G : Graph} {o : Node} (hwf : WF G) (hnn : NonnegW G)
    {s : LoopState} (hinv : DInv G o s) {d : ℤ} {x : Node}
    {rest : List (ℤ × Node)} (hpop : popMin s.pq = some ((d, x), rest))
    (hxnv : x ∉ s.visited) :
    s.dist.val x = (d : EDist) ∧ reachMin G o x = (d : EDist) := by
  have hx_pq : (d, x) ∈ s.pq := popMin_mem hpop
  obtain ⟨hxN, hdist_le, hd0⟩ := hinv.hH (d, x) hx_pq
  have hfin : s.dist.val x ≠ ⊤ := by
    intro htop
    rw [htop] at hdist_le
    exact absurd (top_le_iff.mp hdist_le) (by simp)
  obtain ⟨q, hq, hq_pq⟩ := hinv.hB x hxN hxnv hfin
  have hdq : d ≤ q := pqLe_fst _ _ (popMin_le hpop (q, x) hq_pq)
  have hqd : q ≤ d := by
    have := hq ▸ hdist_le
    exact_mod_cast this
  have hxd : s.dist.val x = (d : EDist) := by
    rw [hq, le_antisymm hqd hdq]
  refine ⟨hxd, le_antisymm ?_ ?_⟩
  · rw [← hxd]
    exact hinv.hA x hxN
  · rcases reachMinW_cases G o x (eWeightEff G) with hcase | ⟨p, hp, hcase⟩
    · have : reachMin G o x = ⊤ := hcase
      rw [this]
      exact le_top
    · have hmin_eq : reachMin G o x = walkCostW (eWeightEff G) p := hcase
      rw [hmin_eq]
      have hxp : x ∈ p :=
        List.mem_of_mem_getLast? ((mem_candidates hwf.1).mp hp).2.2.2
      obtain ⟨y, hyN, hyNv, hy_le⟩ :=
        unvisited_on_path hwf hnn hinv.toDInvCore hp ⟨x, hxp, hxnv⟩
      by_cases hytop : s.dist.val y = ⊤
      · rw [hytop] at hy_le
        calc (d : EDist) ≤ ⊤ := le_top
          _ ≤ walkCostW (eWeightEff G) p := hy_le
      · obtain ⟨qy, hqy, hqy_pq⟩ := hinv.hB y hyN hyNv hytop
        have hdqy : d ≤ qy := pqLe_fst _ _ (popMin_le hpop (qy, y) hqy_pq)
        calc (d : EDist) ≤ (qy : EDist) := by exact_mod_cast hdqy
          _ = s.dist.val y := hqy.symm
          _ ≤ walkCostW (eWeightEff G) p := hy_le

/-- When the queue is exhausted, every node with a finite minimum distance
has been visited (and so carries its optimal label). -/
lemma exhausted_visited {G : Graph} {o : Node} (hwf : WF G) (hnn : NonnegW G)
    {s : LoopState} (hinv : DInv G o s) (hpq : s.pq = []) {v : Node}
    (hfin : reachMin G o v ≠ ⊤) : v ∈ s.visited := by
  by_contra hvnv
  rcases reachMinW_cases G o v (eWeightEff G) with hcase | ⟨p, hp, hcase⟩
  · exact hfin hcase
  · have hvp : v ∈ p :=
      List.mem_of_mem_getLast? ((mem_candidates hwf.1).mp hp).2.2.2
    obtain ⟨y, hyN, hyNv, hy_le⟩ :=
      unvisited_on_path hwf hnn hinv.toDInvCore hp ⟨v, hvp, hvnv⟩
    have hytop : s.dist.val y ≠ ⊤ := by
      intro htop
      rw [htop] at hy_le
      have : reachMin G o v = ⊤ := by
        have h1 : reachMin G o v = walkCostW (eWeightEff G) p := hcase
        rw [h1]
        exact top_le_iff.mp hy_le
      exact hfin this
    obtain ⟨qy, _, hqy_pq⟩ := hinv.hB y hyN hyNv hytop
    rw [hpq] at hqy_pq
    cases hqy_pq


/-- The invariant carried through one relaxation pass from the just-popped
node `x` with key `d`: the loop invariant over the extended visited list
`visited2` (which already contains `x`), with relaxation from `x` completed
only for the `done` prefix of its adjacency list. -/
structure MInv (G : Graph) (o x : Node) (d : ℤ) (visited2 : List Node)
    (done : List (Node × EdgeData)) (dist : Dict EDist)
    (pred : Dict (Option Node)) (pq : List (ℤ × Node)) : Prop where
  distKeys : dist.keys = G.nodes
  predKeys : pred.keys = G.nodes
  hA : ∀ v ∈ G.nodes, reachMin G o v ≤ dist.val v
  hB : ∀ v ∈ G.nodes, v ∉ visited2 → dist.val v ≠ ⊤ →
        ∃ q : ℤ, dist.val v = (q : EDist) ∧ (q, v) ∈ pq
  hH : ∀ y ∈ pq, y.2 ∈ G.nodes ∧ dist.val y.2 ≤ (y.1 : EDist) ∧ 0 ≤ y.1
  hC : ∀ u ∈ visited2, u ≠ x → ∀ v ∈ G.nodes,
        dist.val v ≤ dist.val u + eWeightEff G u v
  hCx : ∀ pe ∈ done, ∀ w, edgeLength pe.2 = some w →
        dist.val pe.1 ≤ ((d + w : ℤ) : EDist)
  hD : ∀ u ∈ visited2, dist.val u = reachMin G o u
  hVisN : ∀ u ∈ visited2, u ∈ G.nodes
  hVisF : ∀ u ∈ visited2, dist.val u ≠ ⊤
  hO : dist.val o ≤ 0
  hPredO : pred.val o = none
  hPred : ∀ v ∈ G.nodes, ∀ u, pred.val v = some u →
        u ∈ visited2 ∧
          ∃ w ∈ effWeights G u v, dist.val v = dist.val u + (w : EDist)
  hPredNone : ∀ v ∈ G.nodes, v ≠ o → pred.val v = none → dist.val v = ⊤
  hPredIdx : ∀ v ∈ G.nodes, ∀ u, pred.val v = some u → v ∈ visited2 →
        visited2.indexOf u < visited2.indexOf v

/-- One full relaxation pass from `x` preserves the invariant, completing
`hCx` over the whole adjacency list, and grows the queue by at most one
entry per neighbor. -/
lemma relax_pass {G : Graph} {o x : Node} {d : ℤ} (hwf : WF G)
    (hnn : NonnegW G) (visited2 : List Node) (hx : x ∈ G.nodes)
    (hxv : x ∈ visited2) (hRx : reachMin G o x = (d : EDist)) (hd0 : 0 ≤ d) :
    ∀ (entries done : List (Node × EdgeData)), G.adj x = done ++ entries →
    ∀ (dist : Dict EDist) (pred : Dict (Option Node)) (pq : List (ℤ × Node)),
      MInv G o x d visited2 done dist pred pq →
      ∃ dist' pred' pq', relaxAll d x entries dist pred pq = .ok dist' pred' pq' ∧
        MInv G o x d visited2 (G.adj x) dist' pred' pq' ∧
        pq'.length ≤ pq.length + entries.length := by
  intro entries
  induction entries with
  | nil =>
    intro done hsplit dist pred pq hm
    rw [List.append_nil] at hsplit
    subst hsplit
    exact ⟨dist, pred, pq, rfl, hm, by simp⟩
  | cons pe rest ih =>
    obtain ⟨v, e⟩ := pe
    intro done hsplit dist pred pq hm
    have hmem_adj : (v, e) ∈ G.adj x := by
      rw [hsplit]
      exact List.mem_append_right _ (List.mem_cons_self _ _)
    have hvN : v ∈ G.nodes := hwf.2 x hx (v, e) hmem_adj
    have hsplit' : G.adj x = (done ++ [(v, e)]) ++ rest := by
      rw [hsplit, List.append_assoc]
      rfl
    rw [relaxAll_cons]
    rcases he : edgeLength e with _ | w <;> dsimp only
    · -- no readable length: skip, and hCx for the new done entry is vacuous
      have hm' : MInv G o x d visited2 (done ++ [(v, e)]) dist pred pq :=
        { hm with
          hCx := by
            intro pe' hpe' w' hw'
            rcases List.mem_append.mp hpe' with h' | h'
            · exact hm.hCx pe' h' w' hw'
            · rcases List.mem_singleton.mp h' with rfl
              rw [he] at hw'
              cases hw' }
      obtain ⟨dist', pred', pq', hrel, hm2, hlen⟩ :=
        ih (done ++ [(v, e)]) hsplit' dist pred pq hm'
      exact ⟨dist', pred', pq', hrel, hm2, by
        have hc : ((v, e) :: rest).length = rest.length + 1 := rfl
        omega⟩
    · have hvk : v ∈ dist.keys := by rw [hm.distKeys]; exact hvN
      rw [Dict.get?_of_mem _ _ hvk]
      dsimp only
      have hwmem : w ∈ effWeights G x v := mem_effWeights.mpr ⟨e, hmem_adj, he⟩
      have hw0 : 0 ≤ w := hnn x hx (v, e) hmem_adj w (by simp [he])
      have hbound : reachMin G o v ≤ ((d + w : ℤ) : EDist) := by
        calc reachMin G o v ≤ reachMin G o x + eWeightEff G x v :=
              reachMin_triangle hwf hnn o x v hvN
          _ ≤ (d : EDist) + (w : EDist) := by
              rw [hRx]
              exact add_le_add_left (eWeightEff_le_of_mem hwmem) _
          _ = ((d + w : ℤ) : EDist) := by
              rw [WithTop.coe_add]
      by_cases hlt : ((d + w : ℤ) : EDist) < dist.val v
      · rw [if_pos hlt]
        -- the improved node is neither visited nor the origin
        have hvnv : v ∉ visited2 := by
          intro hvv
          have h1 : dist.val v = reachMin G o v := hm.hD v hvv
          exact absurd (h1 ▸ hlt) (not_lt.mpr (h1 ▸ hbound))
        have hvx : v ≠ x := fun h => hvnv (h ▸ hxv)
        have hvo : v ≠ o := by
          intro h
          subst h
          have h1 : ((d + w : ℤ) : EDist) < 0 := lt_of_lt_of_le hlt hm.hO
          have h2 : (0 : EDist) ≤ ((d + w : ℤ) : EDist) := by
            rw [show ((0 : EDist)) = ((0 : ℤ) : EDist) from rfl]
            exact_mod_cast add_nonneg hd0 hw0
          exact absurd (lt_of_le_of_lt h2 h1) (lt_irrefl _)
        have hvpk : v ∈ pred.keys := by rw [hm.predKeys]; exact hvN
        have hxd : dist.val x = (d : EDist) := by
          rw [hm.hD x hxv, hRx]
        -- the updated state
        have hm' : MInv G o x d visited2 (done ++ [(v, e)])
            (dist.set v ((d + w : ℤ) : EDist)) (pred.set v (some x))
            ((d + w, v) :: pq) := by
          refine ⟨?_, ?_, ?_, ?_, ?_, ?_, ?_, ?_, ?_, ?_, ?_, ?_, ?_, ?_, ?_⟩
          · rw [Dict.keys_set_of_mem _ _ _ hvk, hm.distKeys]
          · rw [Dict.keys_set_of_mem _ _ _ hvpk, hm.predKeys]
          · intro z hz
            by_cases hzv : z = v
            · subst hzv
              rw [Dict.val_set_self]
              exact hbound
            · rw [Dict.val_set_ne _ _ _ _ hzv]
              exact hm.hA z hz
          · intro z hz hznv hzfin
            by_cases hzv : z = v
            · subst hzv
              exact ⟨d + w, Dict.val_set_self _ _ _, List.mem_cons_self _ _⟩
            · rw [Dict.val_set_ne _ _ _ _ hzv] at hzfin ⊢
              obtain ⟨q, hq, hq_pq⟩ := hm.hB z hz hznv hzfin
              exact ⟨q, hq, List.mem_cons_of_mem _ hq_pq⟩
          · intro y hy
            rcases List.mem_cons.mp hy with rfl | hy'
            · exact ⟨hvN, by rw [Dict.val_set_self], add_nonneg hd0 hw0⟩
            · obtain ⟨h1, h2, h3⟩ := hm.hH y hy'
              refine ⟨h1, ?_, h3⟩
              by_cases hzv : y.2 = v
              · rw [hzv, Dict.val_set_self]
                calc ((d + w : ℤ) : EDist) ≤ dist.val y.2 := le_of_lt (hzv ▸ hlt)
                  _ ≤ (y.1 : EDist) := h2
              · rw [Dict.val_set_ne _ _ _ _ hzv]
                exact h2
          · intro u hu hux z hz
            have huv : u ≠ v := fun h => hvnv (h ▸ hu)
            rw [Dict.val_set_ne _ _ _ _ huv]
            by_cases hzv : z = v
            · subst hzv
              rw [Dict.val_set_self]
              calc ((d + w : ℤ) : EDist) ≤ dist.val z := le_of_lt hlt
                _ ≤ dist.val u + eWeightEff G u z := hm.hC u hu hux z hz
            · rw [Dict.val_set_ne _ _ _ _ hzv]
              exact hm.hC u hu hux z hz
          · intro pe' hpe' w' hw'
            rcases List.mem_append.mp hpe' with h' | h'
            · by_cases hzv : pe'.1 = v
              · rw [hzv, Dict.val_set_self]
                calc ((d + w : ℤ) : EDist) ≤ dist.val pe'.1 := le_of_lt (hzv ▸ hlt)
                  _ ≤ ((d + w' : ℤ) : EDist) := hm.hCx pe' h' w' hw'
              · rw [Dict.val_set_ne _ _ _ _ hzv]
                exact hm.hCx pe' h' w' hw'
            · rcases List.mem_singleton.mp h' with rfl
              dsimp only at hw' ⊢
              rw [he] at hw'
              cases hw'
              rw [Dict.val_set_self]
          · intro u hu
            have huv : u ≠ v := fun h => hvnv (h ▸ hu)
            rw [Dict.val_set_ne _ _ _ _ huv]
            exact hm.hD u hu
          · exact hm.hVisN
          · intro u hu
            have huv : u ≠ v := fun h => hvnv (h ▸ hu)
            rw [Dict.val_set_ne _ _ _ _ huv]
            exact hm.hVisF u hu
          · rw [Dict.val_set_ne _ _ _ _ (Ne.symm hvo)]
            exact hm.hO
          · rw [Dict.val_set_ne _ _ _ _ (Ne.symm hvo)]
            exact hm.hPredO
          · intro z hz u hu
            by_cases hzv : z = v
            · subst hzv
              rw [Dict.val_set_self] at hu
              cases hu
              refine ⟨hxv, w, hwmem, ?_⟩
              rw [Dict.val_set_self, Dict.val_set_ne _ _ _ _ (Ne.symm hvx), hxd,
                WithTop.coe_add]
            · rw [Dict.val_set_ne _ _ _ _ hzv] at hu
              obtain ⟨h1, w', hw', heq'⟩ := hm.hPred z hz u hu
              have huv : u ≠ v := fun h => hvnv (h ▸ h1)
              refine ⟨h1, w', hw', ?_⟩
              rw [Dict.val_set_ne _ _ _ _ hzv, Dict.val_set_ne _ _ _ _ huv]
              exact heq'
          · intro z hz hzo hznone
            by_cases hzv : z = v
            · subst hzv
              rw [Dict.val_set_self] at hznone
              cases hznone
            · rw [Dict.val_set_ne _ _ _ _ hzv] at hznone
              rw [Dict.val_set_ne _ _ _ _ hzv]
              exact hm.hPredNone z hz hzo hznone
          · intro z hz u hu hzvis
            by_cases hzv : z = v
            · exact absurd (hzv ▸ hzvis) hvnv
            · rw [Dict.val_set_ne _ _ _ _ hzv] at hu
              exact hm.hPredIdx z hz u hu hzvis
        obtain ⟨dist', pred', pq', hrel, hm2, hlen⟩ :=
          ih (done ++ [(v, e)]) hsplit' (dist.set v ((d + w : ℤ) : EDist))
            (pred.set v (some x)) ((d + w, v) :: pq) hm'
        refine ⟨dist', pred', pq', hrel, hm2, ?_⟩
        have hc1 : ((v, e) :: rest).length = rest.length + 1 := rfl
        have hc2 : ((d + w, v) :: pq).length = pq.length + 1 := rfl
        omega
      · rw [if_neg hlt]
        have hm' : MInv G o x d visited2 (done ++ [(v, e)]) dist pred pq :=
          { hm with
            hCx := by
              intro pe' hpe' w' hw'
              rcases List.mem_append.mp hpe' with h' | h'
              · exact hm.hCx pe' h' w' hw'
              · rcases List.mem_singleton.mp h' with rfl
                dsimp only at hw' ⊢
                rw [he] at hw'
                cases hw'
                exact not_lt.mp hlt }
        obtain ⟨dist', pred', pq', hrel, hm2, hlen⟩ :=
          ih (done ++ [(v, e)]) hsplit' dist pred pq hm'
        exact ⟨dist', pred', pq', hrel, hm2, by
          have hc : ((v, e) :: rest).length = rest.length + 1 := rfl
          omega⟩


/-- The while loop, run with enough fuel from an invariant state, ends
without error in an invariant state whose destination label is the true
minimum distance (finite or not). -/
lemma loop_run {G : Graph} {o destino : Node} (hwf : WF G) (hnn : NonnegW G)
    (hdN : destino ∈ G.nodes) :
    ∀ (fuel : Nat) (s : LoopState), phi G s < fuel → DInv G o s →
      ∃ s', loop destino fuel s = .ok s' ∧ DInvCore G o s' ∧
        s'.dist.val destino = reachMin G o destino := by
  intro fuel
  induction fuel with
  | zero =>
    intro s hphi _
    exact absurd hphi (Nat.not_lt_zero _)
  | succ n ih =>
    intro s hphi hinv
    rw [loop_succ]
    rcases hpop : popMin s.pq with _ | ⟨⟨d, x⟩, rest⟩ <;> dsimp only
    · refine ⟨s, rfl, hinv.toDInvCore, ?_⟩
      by_cases hfin : reachMin G o destino = ⊤
      · have h1 := hinv.hA destino hdN
        rw [hfin] at h1
        rw [top_le_iff.mp h1, hfin]
      · exact hinv.hD destino
          (exhausted_visited hwf hnn hinv (popMin_eq_none.mp hpop) hfin)
    · have hx_pq : (d, x) ∈ s.pq := popMin_mem hpop
      obtain ⟨hxN, hdist_le, hd0⟩ := hinv.hH (d, x) hx_pq
      have hlen : s.pq.length = rest.length + 1 := popMin_length hpop
      by_cases hd_dest : x = destino
      · subst hd_dest
        rw [if_pos rfl]
        refine ⟨{ s with pq := rest }, rfl, ?_, ?_⟩
        · exact { hinv.toDInvCore with
            hH := fun y hy => hinv.hH y (popMin_rest_subset hpop y hy) }
        · by_cases hxv : x ∈ s.visited
          · exact hinv.hD x hxv
          · obtain ⟨h1, h2⟩ := popped_key_eq hwf hnn hinv hpop hxv
            rw [h1, h2]
      · rw [if_neg hd_dest]
        by_cases hxv : x ∈ s.visited
        · rw [if_pos hxv]
          have hinv' : DInv G o { s with pq := rest } :=
            { hinv.toDInvCore with
              hH := fun y hy => hinv.hH y (popMin_rest_subset hpop y hy)
              hB := by
                intro z hz hznv hzfin
                obtain ⟨q, hq, hq_pq⟩ := hinv.hB z hz hznv hzfin
                refine ⟨q, hq, ?_⟩
                have hzx : z ≠ x := fun h => hznv (h ▸ hxv)
                rcases List.mem_cons.mp
                    ((List.Perm.mem_iff (popMin_perm hpop)).mp hq_pq) with
                  heq | hmem
                · cases heq
                  exact absurd rfl hzx
                · exact hmem }
          have hphi' : phi G { s with pq := rest } < n := by
            have h1 : phi G s = s.pq.length + degSumRem G s.visited := rfl
            have h2 : phi G { s with pq := rest } =
                rest.length + degSumRem G s.visited := rfl
            omega
          exact ih { s with pq := rest } hphi' hinv'
        · rw [if_neg hxv]
          have hx_g : x ∈ s.graph.nodes := by rw [hinv.graphEq]; exact hxN
          rw [if_pos hx_g]
          obtain ⟨hDx, hRx⟩ := popped_key_eq hwf hnn hinv hpop hxv
          have hadj_eq : s.graph.adj x = G.adj x := by rw [hinv.graphEq]
          -- invariant at the start of the relaxation pass
          have hm0 : MInv G o x d (s.visited ++ [x]) [] s.dist s.pred rest := by
            refine ⟨hinv.distKeys, hinv.predKeys, hinv.hA, ?_, ?_, ?_, ?_, ?_,
              ?_, ?_, hinv.hO, hinv.hPredO, ?_, hinv.hPredNone, ?_⟩
            · intro z hz hznv hzfin
              have hznv' : z ∉ s.visited := fun h =>
                hznv (List.mem_append_left _ h)
              have hzx : z ≠ x := by
                intro h
                exact hznv (h ▸ List.mem_append_right _ (List.mem_singleton.mpr rfl))
              obtain ⟨q, hq, hq_pq⟩ := hinv.hB z hz hznv' hzfin
              refine ⟨q, hq, ?_⟩
              rcases List.mem_cons.mp
                  ((List.Perm.mem_iff (popMin_perm hpop)).mp hq_pq) with
                heq | hmem
              · cases heq
                exact absurd rfl hzx
              · exact hmem
            · exact fun y hy => hinv.hH y (popMin_rest_subset hpop y hy)
            · intro u hu hux z hz
              rcases List.mem_append.mp hu with h' | h'
              · exact hinv.hC u h' z hz
              · exact absurd (List.mem_singleton.mp h') hux
            · intro pe hpe w hw
              cases hpe
            · intro u hu
              rcases List.mem_append.mp hu with h' | h'
              · exact hinv.hD u h'
              · rcases List.mem_singleton.mp h' with rfl
                rw [hDx, hRx]
            · intro u hu
              rcases List.mem_append.mp hu with h' | h'
              · exact hinv.hVisN u h'
              · rcases List.mem_singleton.mp h' with rfl
                exact hxN
            · intro u hu
              rcases List.mem_append.mp hu with h' | h'
              · exact hinv.hVisF u h'
              · rcases List.mem_singleton.mp h' with rfl
                rw [hDx]
                exact WithTop.coe_ne_top
            · intro z hz u hu
              obtain ⟨h1, hrest⟩ := hinv.hPred z hz u hu
              exact ⟨List.mem_append_left _ h1, hrest⟩
            · intro z hz u hu hzvis
              obtain ⟨huVis, _⟩ := hinv.hPred z hz u hu
              have hidxu : (s.visited ++ [x]).indexOf u = s.visited.indexOf u :=
                List.indexOf_append_of_mem huVis
              rcases List.mem_append.mp hzvis with h' | h'
              · have hidxz : (s.visited ++ [x]).indexOf z =
                    s.visited.indexOf z := List.indexOf_append_of_mem h'
                rw [hidxu, hidxz]
                exact hinv.hPredIdx z hz u hu h'
              · rcases List.mem_singleton.mp h' with rfl
                rw [hidxu, indexOf_concat_self hxv]
                exact List.indexOf_lt_length.mpr huVis
          have hxN2 : x ∈ G.nodes := hxN
          have hd02 : (0 : ℤ) ≤ d := hd0
          obtain ⟨dist', pred', pq', hrel, hm2', hlen'⟩ :=
            relax_pass hwf hnn (s.visited ++ [x]) hxN2
              (List.mem_append_right _ (List.mem_singleton.mpr rfl)) hRx hd02
              (s.graph.adj x) [] (by rw [hadj_eq, List.nil_append]) s.dist
              s.pred rest hm0
          rw [hrel]
          dsimp only
          have hnd2 : (s.visited ++ [x]).Nodup := by
            rw [List.nodup_append]
            exact ⟨hinv.hVisNd, List.nodup_singleton x, by
              intro a ha hax
              rcases List.mem_singleton.mp hax with rfl
              exact hxv ha⟩
          have hc2 : ∀ u ∈ s.visited ++ [x], ∀ z ∈ G.nodes,
              dist'.val z ≤ dist'.val u + eWeightEff G u z := by
            intro u hu z hz
            by_cases hux : u = x
            · subst hux
              have hud : dist'.val u = (d : EDist) := by
                rw [hm2'.hD u (List.mem_append_right _ (List.mem_singleton.mpr rfl)), hRx]
              rcases eWeightEff_cases G u z with hcase | ⟨w0, hw0, hcase⟩
              · rw [hcase, hud]
                rw [show ((d : EDist) + ⊤) = ⊤ from add_top _]
                exact le_top
              · obtain ⟨e0, he0, hlen0⟩ := mem_effWeights.mp hw0
                have hcx := hm2'.hCx (z, e0) he0 w0 hlen0
                rw [hcase, hud, ← WithTop.coe_add]
                exact hcx
            · exact hm2'.hC u hu hux z hz
          have hinv2 : DInv G o { s with dist := dist', pred := pred', visited := s.visited ++ [x], pq := pq' } :=
            ⟨⟨hinv.graphEq, hm2'.distKeys, hm2'.predKeys, hm2'.hA, hm2'.hH,
              hc2, hm2'.hD, hm2'.hVisN, hm2'.hVisF, hnd2, hm2'.hO,
              hm2'.hPredO, hm2'.hPred, hm2'.hPredNone, hm2'.hPredIdx⟩,
             hm2'.hB⟩
          have hphi2 : phi G { s with dist := dist', pred := pred', visited := s.visited ++ [x], pq := pq' } < n := by
            have h1 : phi G s = s.pq.length + degSumRem G s.visited := rfl
            have h2 : phi G { s with dist := dist', pred := pred', visited := s.visited ++ [x], pq := pq' } = pq'.length + degSumRem G (s.visited ++ [x]) := rfl
            have h3 : degSumRem G (s.visited ++ [x]) + (G.adj x).length =
                degSumRem G s.visited :=
              degSumRem_append G s.visited x hwf.1 hxN hxv
            have h4 : pq'.length ≤ rest.length + (s.graph.adj x).length := hlen'
            rw [hadj_eq] at h4
            omega
          exact ih _ hphi2 hinv2


lemma linked_concat {G : Graph} :
    ∀ {c : List Node} {ws : List ℤ} {u v : Node} {w : ℤ},
      linked G c ws → c.getLast? = some u → w ∈ effWeights G u v →
      linked G (c ++ [v]) (ws ++ [w]) := by
  intro c
  induction c with
  | nil =>
    intro ws u v w _ hlast _
    cases hlast
  | cons a t ih =>
    intro ws u v w hlink hlast hw
    cases t with
    | nil =>
      cases ws with
      | nil =>
        simp only [List.getLast?_singleton, Option.some.injEq] at hlast
        subst hlast
        exact ⟨hw, trivial⟩
      | cons w0 ws' => cases hlink
    | cons b t2 =>
      cases ws with
      | nil => cases hlink
      | cons w0 ws' =>
        obtain ⟨h1, h2⟩ := hlink
        have hlast' : (b :: t2).getLast? = some u := by
          simpa [List.getLast?_cons_cons] using hlast
        exact ⟨h1, ih h2 hlast' hw⟩

lemma linked_edgeChain {G : Graph} :
    ∀ {c : List Node} {ws : List ℤ}, linked G c ws → edgeChain G c := by
  intro c
  induction c with
  | nil => intro ws _; trivial
  | cons a t ih =>
    intro ws hlink
    cases t with
    | nil => trivial
    | cons b t2 =>
      cases ws with
      | nil => cases hlink
      | cons w0 ws' =>
        obtain ⟨h1, h2⟩ := hlink
        obtain ⟨e, he, _⟩ := mem_effWeights.mp h1
        exact ⟨⟨e, he⟩, ih h2⟩

/-- Path reconstruction, run from any node whose predecessor chain exists:
it succeeds and returns a predecessor path whose endpoints and total
weight the distance labels describe. -/
lemma buildPath_run {G : Graph} (pred : Dict (Option Node)) (dist : Dict EDist)
    (visited : List Node) (hkeys : pred.keys = G.nodes)
    (hVisN : ∀ u ∈ visited, u ∈ G.nodes)
    (hPred : ∀ v ∈ G.nodes, ∀ u, pred.val v = some u →
       u ∈ visited ∧ ∃ w ∈ effWeights G u v, dist.val v = dist.val u + (w : EDist))
    (hPredIdx : ∀ v ∈ G.nodes, ∀ u, pred.val v = some u → v ∈ visited →
       visited.indexOf u < visited.indexOf v) :
    ∀ (k : Nat) (cur : Node) (acc : List Node), cur ∈ G.nodes → 1 ≤ k →
      (pred.val cur = none ∨
        ∃ u, pred.val cur = some u ∧ visited.indexOf u + 2 ≤ k) →
      ∃ chain ws, buildPath pred k cur acc = .ok ((chain ++ [cur]) ++ acc) ∧
        linked G (chain ++ [cur]) ws ∧
        (∀ z ∈ chain ++ [cur], z ∈ G.nodes) ∧
        ∃ v0, (chain ++ [cur]).head? = some v0 ∧ pred.val v0 = none ∧
          dist.val cur = dist.val v0 + ((ws.sum : ℤ) : EDist) := by
  intro k
  induction k with
  | zero =>
    intro cur acc _ hk _
    exact absurd hk (by omega)
  | succ n ih =>
    intro cur acc hcurN _ hcase
    have hcurk : cur ∈ pred.keys := by rw [hkeys]; exact hcurN
    rw [buildPath_succ, Dict.get?_of_mem _ _ hcurk]
    rcases hpv : pred.val cur with _ | u <;> dsimp only
    · refine ⟨[], [], rfl, trivial, ?_, cur, rfl, hpv, by simp⟩
      intro z hz
      rcases List.mem_singleton.mp hz with rfl
      exact hcurN
    · obtain ⟨huVis, w, hw, heq⟩ := hPred cur hcurN u hpv
      have huN : u ∈ G.nodes := hVisN u huVis
      have hbound : visited.indexOf u + 2 ≤ n + 1 := by
        rcases hcase with h | ⟨u', hu', hb⟩
        · rw [hpv] at h; cases h
        · rw [hpv] at hu'
          cases hu'
          exact hb
      have hcase' : pred.val u = none ∨
          ∃ u2, pred.val u = some u2 ∧ visited.indexOf u2 + 2 ≤ n := by
        rcases hpu : pred.val u with _ | u2
        · exact Or.inl rfl
        · refine Or.inr ⟨u2, rfl, ?_⟩
          have := hPredIdx u huN u2 hpu huVis
          omega
      obtain ⟨chain, ws, hok, hlink, hmem, v0, hhead, hv0, hcost⟩ :=
        ih u (cur :: acc) huN (by omega) hcase'
      refine ⟨chain ++ [u], ws ++ [w], ?_, ?_, ?_, v0, ?_, hv0, ?_⟩
      · rw [hok]
        simp
      · exact linked_concat hlink (by simp [List.getLast?_concat]) hw
      · intro z hz
        rcases List.mem_append.mp hz with hz' | hz'
        · exact hmem z (by simpa using hz')
        · rcases List.mem_singleton.mp hz' with rfl
          exact hcurN
      · rw [List.head?_append_of_ne_nil _ (by simp)]
        exact hhead
      · rw [heq, hcost]
        rw [add_assoc]
        congr 1
        rw [← WithTop.coe_add]
        congr 1
        simp


lemma DInv_initial (G : Graph) (o : Node) (hwf : WF G)
    (ho : o ∈ G.nodes) : DInv G o (initState G o) := by
  have hval : ∀ v, v ≠ o → (initState G o).dist.val v = ⊤ := by
    intro v hv
    exact Dict.val_set_ne _ _ _ _ hv
  have hvalo : (initState G o).dist.val o = ((0 : ℤ) : EDist) :=
    Dict.val_set_self _ _ _
  refine ⟨⟨rfl, ?_, rfl, ?_, ?_, ?_, ?_, ?_, ?_, List.nodup_nil, ?_, rfl,
    ?_, ?_, ?_⟩, ?_⟩
  · show (if o ∈ G.nodes then G.nodes else o :: G.nodes) = G.nodes
    rw [if_pos ho]
  · intro v hv
    by_cases hvo : v = o
    · rw [hvo, hvalo]
      have h1 : reachMin G o o ≤ 0 := reachMin_self_le hwf.1 ho
      simpa using h1
    · rw [hval v hvo]
      exact le_top
  · intro y hy
    rcases List.mem_singleton.mp hy with rfl
    refine ⟨ho, ?_, le_refl _⟩
    rw [hvalo]
  · intro u hu
    cases hu
  · intro u hu
    cases hu
  · intro u hu
    cases hu
  · intro u hu
    cases hu
  · rw [hvalo]
    simp
  · intro v _ u hu
    cases hu
  · intro v _ hvo hnone
    exact hval v hvo
  · intro v _ u hu
    cases hu
  · intro v hv hvnv hvfin
    by_cases hvo : v = o
    · rw [hvo]
      exact ⟨0, hvalo, List.mem_singleton.mpr rfl⟩
    · exact absurd (hval v hvo) hvfin

/-- C1 (amended): on every well-formed undirected graph with non-negative
readable weights, for origin and destination present in the graph with the
destination reachable through weighted edges, `dijkstra` returns some path
together with a cost equal to the minimum, over all origin-destination
paths, of the sum of the weights the engine's lookup effectively reads
(the key-0 / attribute 'length' of each step). -/
theorem dijkstra_cost_optimal_eff (G : Graph) (o d : Node) (hwf : WF G)
    (hsym : Symm G) (hnn : NonnegW G) (ho : o ∈ G.nodes) (hd : d ∈ G.nodes)
    (hreach : reachMin G o d ≠ ⊤) :
    ∃ p, dijkstra G o d = .ok p (reachMin G o d) := by
  unfold dijkstra dijkstraLoopOut
  have hphi0 : phi G (initState G o) < degSumAll G + 2 := by
    have h1 : phi G (initState G o) = 1 + degSumRem G [] := rfl
    rw [degSumRem_nil] at h1
    omega
  obtain ⟨s', hs', hcore, hdist⟩ := loop_run hwf hnn hd (degSumAll G + 2)
    (initState G o) hphi0 (DInv_initial G o hwf ho)
  rw [hs']
  dsimp only
  have hdk : d ∈ s'.pred.keys := by rw [hcore.predKeys]; exact hd
  have hdk2 : d ∈ s'.dist.keys := by rw [hcore.distKeys]; exact hd
  rw [Dict.get?_of_mem _ _ hdk]
  dsimp only
  rcases hpd : s'.pred.val d with _ | u
  · by_cases hdo : d = o
    · subst hdo
      rw [if_neg (by simp)]
      rw [buildPath_stops _ _ _ _ (by rw [Dict.get?_of_mem _ _ hdk, hpd])
        (by omega)]
      rw [Dict.get?_of_mem _ _ hdk2]
      exact ⟨[d], by rw [hdist]⟩
    · exfalso
      apply hreach
      rw [← hdist]
      exact hcore.hPredNone d hd hdo hpd
  · rw [if_neg (by simp)]
    have hucase : s'.pred.val d = none ∨
        ∃ u2, s'.pred.val d = some u2 ∧
          s'.visited.indexOf u2 + 2 ≤ G.nodes.length + 2 := by
      refine Or.inr ⟨u, hpd, ?_⟩
      have huVis : u ∈ s'.visited := (hcore.hPred d hd u hpd).1
      have hidx : s'.visited.indexOf u < s'.visited.length :=
        List.indexOf_lt_length.mpr huVis
      have hlenv : s'.visited.length ≤ G.nodes.length :=
        nodup_subset_length hcore.hVisNd hcore.hVisN
      omega
    obtain ⟨chain, ws, hok, hlink, hmemN, v0, hhead, hv0, hcost⟩ :=
      buildPath_run s'.pred s'.dist s'.visited hcore.predKeys hcore.hVisN
        hcore.hPred hcore.hPredIdx (G.nodes.length + 2) d [] hd (by omega)
        hucase
    rw [hok]
    dsimp only
    rw [Dict.get?_of_mem _ _ hdk2]
    exact ⟨(chain ++ [d]) ++ [], by rw [hdist]⟩

theorem dijkstra_cost_optimal_eff_witness :
    WF ex4 ∧ Symm ex4 ∧ NonnegW ex4 ∧ 0 ∈ ex4.nodes ∧ 3 ∈ ex4.nodes ∧
    reachMin ex4 0 3 ≠ ⊤ ∧
    (∃ p, dijkstra ex4 0 3 = .ok p (reachMin ex4 0 3)) :=
  ⟨by decide, by decide, by decide, by decide, by decide, by decide,
    dijkstra_cost_optimal_eff ex4 0 3 (by decide) (by decide) (by decide)
      (by decide) (by decide) (by decide)⟩

/-- C7 (amended): on a well-formed graph with non-negative readable
weights, a non-empty returned path steps along edges of the graph, each
step carrying a 'length' the engine's lookup reads, and the returned cost
is exactly the sum of those read lengths. -/
theorem dijkstra_path_walk (G : Graph) (o d : Node) (p : List Node)
    (c : EDist) (hwf : WF G) (hnn : NonnegW G) (ho : o ∈ G.nodes)
    (hd : d ∈ G.nodes) (hres : dijkstra G o d = .ok p c) (hne : p ≠ []) :
    edgeChain G p ∧ ∃ ws, linked G p ws ∧ c = ((ws.sum : ℤ) : EDist) := by
  unfold dijkstra dijkstraLoopOut at hres
  have hphi0 : phi G (initState G o) < degSumAll G + 2 := by
    have h1 : phi G (initState G o) = 1 + degSumRem G [] := rfl
    rw [degSumRem_nil] at h1
    omega
  obtain ⟨s', hs', hcore, hdist⟩ := loop_run hwf hnn hd (degSumAll G + 2)
    (initState G o) hphi0 (DInv_initial G o hwf ho)
  rw [hs'] at hres
  dsimp only at hres
  have hdk : d ∈ s'.pred.keys := by rw [hcore.predKeys]; exact hd
  have hdk2 : d ∈ s'.dist.keys := by rw [hcore.distKeys]; exact hd
  rw [Dict.get?_of_mem _ _ hdk] at hres
  dsimp only at hres
  have hvalo : s'.dist.val o = ((0 : ℤ) : EDist) := by
    have h1 : reachMin G o o ≤ s'.dist.val o := hcore.hA o ho
    rw [reachMin_self hwf hnn ho] at h1
    have h2 : s'.dist.val o ≤ 0 := hcore.hO
    have h3 : s'.dist.val o = 0 := le_antisymm h2 h1
    rw [h3]
    rfl
  rcases hpd : s'.pred.val d with _ | u <;> rw [hpd] at hres
  · by_cases hdo : d = o
    · subst hdo
      rw [if_neg (by simp)] at hres
      rw [buildPath_stops _ _ _ _ (by rw [Dict.get?_of_mem _ _ hdk, hpd])
        (by omega)] at hres
      rw [Dict.get?_of_mem _ _ hdk2] at hres
      injection hres with hp hc
      subst hp
      subst hc
      refine ⟨trivial, [], trivial, ?_⟩
      rw [hvalo]
      simp
    · rw [if_pos ⟨rfl, hdo⟩] at hres
      injection hres with hp _
      exact absurd hp.symm hne
  · rw [if_neg (by simp)] at hres
    have hucase : s'.pred.val d = none ∨
        ∃ u2, s'.pred.val d = some u2 ∧
          s'.visited.indexOf u2 + 2 ≤ G.nodes.length + 2 := by
      refine Or.inr ⟨u, hpd, ?_⟩
      have huVis : u ∈ s'.visited := (hcore.hPred d hd u hpd).1
      have hidx : s'.visited.indexOf u < s'.visited.length :=
        List.indexOf_lt_length.mpr huVis
      have hlenv : s'.visited.length ≤ G.nodes.length :=
        nodup_subset_length hcore.hVisNd hcore.hVisN
      omega
    obtain ⟨chain, ws, hok, hlink, hmemN, v0, hhead, hv0, hcost⟩ :=
      buildPath_run s'.pred s'.dist s'.visited hcore.predKeys hcore.hVisN
        hcore.hPred hcore.hPredIdx (G.nodes.length + 2) d [] hd (by omega)
        hucase
    rw [hok] at hres
    dsimp only at hres
    rw [Dict.get?_of_mem _ _ hdk2] at hres
    injection hres with hp hc
    have hv0mem : v0 ∈ chain ++ [d] := List.mem_of_mem_head? hhead
    have hv0N : v0 ∈ G.nodes := hmemN v0 hv0mem
    have hdfin : s'.dist.val d ≠ ⊤ := by
      obtain ⟨huVis, w2, _, heq2⟩ := hcore.hPred d hd u hpd
      rw [heq2]
      exact WithTop.add_ne_top.mpr ⟨hcore.hVisF u huVis, WithTop.coe_ne_top⟩
    have hv0o : v0 = o := by
      by_contra hvo
      have h1 : s'.dist.val v0 = ⊤ := hcore.hPredNone v0 hv0N hvo hv0
      rw [h1] at hcost
      rw [top_add] at hcost
      exact hdfin hcost
    subst hv0o
    subst hp
    subst hc
    refine ⟨?_, ws, ?_, ?_⟩
    · have h1 : edgeChain G (chain ++ [d]) := linked_edgeChain hlink
      simpa using h1
    · simpa using hlink
    · rw [hcost, hvalo]
      simp

theorem dijkstra_path_walk_witness :
    WF ex4 ∧ NonnegW ex4 ∧ 0 ∈ ex4.nodes ∧ 3 ∈ ex4.nodes ∧
    dijkstra ex4 0 3 = .ok [0, 1, 3] ((2 : ℤ) : EDist) ∧
    ([0, 1, 3] : List Node) ≠ [] ∧
    (edgeChain ex4 [0, 1, 3] ∧ ∃ ws, linked ex4 [0, 1, 3] ws ∧
      ((2 : ℤ) : EDist) = ((ws.sum : ℤ) : EDist)) :=
  ⟨by decide, by decide, by decide, by decide, by decide, by decide,
    dijkstra_path_walk ex4 0 3 [0, 1, 3] ((2 : ℤ) : EDist) (by decide)
      (by decide) (by decide) (by decide) (by decide) (by decide)⟩

end Grafos
